import Mathlib

/-!
Shallow embedding of the pipe streams of `Viper/io.py` (`BytesBuffer` and
`StringBuffer`) and verification of their specification claims.

Modelling conventions:
* Python `bytearray`/`bytes` values are `List Nat` (one `Nat` per byte);
  Python `str` values are `List Nat` (one `Nat` per Unicode code point).
* The unbounded cursors `__start`/`__end` are `Nat` fields `startC`/`endC`
  (they never go negative in the source: they only ever increase).
* Python `%` on a possibly negative left operand is `pymod` (Int.emod,
  which already returns a value in `[0, n)` for positive `n`, then `toNat`).
* The code is single-writer/single-reader and every claim is about runs
  without interleaving, so a call that reaches an `Event.wait()` with
  nobody left to signal it is modelled by the `blocked` result constructor
  (carrying the state at the moment of the wait).  Event bookkeeping
  (`set`/`clear`, the `notify` edge triggers) changes no observable
  single-threaded state and is therefore not part of the state.
* Exceptions are result constructors, carrying the state at raise time
  (the raising paths of the source never mutate state first).
* The loops of the source are structurally recursive on a fuel argument;
  the wrappers pass fuel that is provably sufficient whenever the buffer
  capacity is positive (each loop iteration consumes at least one byte of
  progress), so fuel exhaustion only occurs for degenerate states that the
  constructors cannot produce.
-/

/-- Python `a % n` for an `Int` left operand and `Nat` modulus
(`Int.emod` matches Python's sign convention for positive `n`). -/
def pymod (a : Int) (n : Nat) : Nat :=
  (a % (n : Int)).toNat

/-- Python slice assignment `l[i : i + v.length] = v` (in-bounds usage only:
every call site writes inside the buffer, which keeps the length fixed). -/
def setRange (l : List Nat) (i : Nat) (v : List Nat) : List Nat :=
  l.take i ++ v ++ l.drop (i + v.length)

/-- Python slice `l[a : b]` for `a ≤ b`. -/
def pyslice (l : List Nat) (a b : Nat) : List Nat :=
  (l.drop a).take (b - a)

/-- The `size` argument of `read`/`readline`: an `int` or `float("inf")`. -/
inductive SizeV where
  | fin (n : Int)
  | inf
deriving DecidableEq, Repr

/-- Python `size < 0` (the validation test; `float("inf") < 0` is false). -/
def SizeV.isNeg : SizeV → Bool
  | .fin n => n < 0
  | .inf => false

/-- Python `read < size` for a `Nat` byte/char count against a `SizeV`. -/
def SizeV.gtN (size : SizeV) (read : Nat) : Bool :=
  match size with
  | .fin n => (read : Int) < n
  | .inf => true

/-- Python `if len(packet) > size - read: packet = packet[:size - read]`. -/
def truncTo (packet : List Nat) (size : SizeV) (read : Nat) : List Nat :=
  match size with
  | .fin n => if (packet.length : Int) > n - read then packet.take (n - read).toNat else packet
  | .inf => packet

/-- State of a `Viper.io.BytesBuffer` pipe: fixed circular byte storage
`buffer`, unbounded read cursor `startC` (`__start`), unbounded write cursor
`endC` (`__end`) and the `closed` flag. -/
structure BytesBuffer where
  buffer : List Nat
  startC : Nat
  endC : Nat
  closed : Bool
deriving DecidableEq, Repr

/-- `BytesBuffer.__init__(size)`: zeroed storage, both cursors at 0, open.
(The constructor of the source rejects `size <= 0`; claims carry `0 < size`.) -/
def BytesBuffer.init (size : Nat) : BytesBuffer :=
  ⟨List.replicate size 0, 0, 0, false⟩

/-- `BytesBuffer.close()`: sets the closed flag (the event signalling it also
performs has no single-threaded effect). -/
def BytesBuffer.close (s : BytesBuffer) : BytesBuffer :=
  { s with closed := true }

/-- The `readable` property: `self.__end - self.__start` (a byte count, not a
boolean capability flag). -/
def BytesBuffer.readable (s : BytesBuffer) : Int :=
  (s.endC : Int) - s.startC

/-- The `writable` property: free space,
`len(buffer)` if `__end == __start` else `(__start - __end) % len(buffer)`. -/
def BytesBuffer.writable (s : BytesBuffer) : Nat :=
  if s.endC = s.startC then s.buffer.length
  else pymod ((s.startC : Int) - s.endC) s.buffer.length

/-- `seekable()` of a pipe: always `False`. -/
def BytesBuffer.seekable (_s : BytesBuffer) : Bool :=
  false

/-- `seek` on a pipe: unconditionally raises `OSError` (modelled as `none`). -/
def BytesBuffer.seek (_s : BytesBuffer) (_offset _whence : Int) : Option Int :=
  none

/-- `truncate` on a pipe: unconditionally raises `OSError` (modelled as `none`). -/
def BytesBuffer.truncate (_s : BytesBuffer) (_size : Option Int) : Option Unit :=
  none

/-- Result of a pipe `write`: `closedErr` models `IOClosedError` raised at
entry, `blocked` models reaching the space-available wait with no concurrent
reader (carrying bytes written so far and the state at the wait), `ok`
carries the returned count and the final state. -/
inductive WRes where
  | closedErr (s : BytesBuffer)
  | blocked (done : Nat) (s : BytesBuffer)
  | ok (n : Nat) (s : BytesBuffer)
deriving DecidableEq, Repr

/-- The state carried by a `WRes` (used to state frame/invariant claims). -/
def WRes.st : WRes → BytesBuffer
  | .closedErr s => s
  | .blocked _ s => s
  | .ok _ s => s

/-- The body of `BytesBuffer.write`'s loop
`while done < len(data) and not self.closed`.  One recursive call per
iteration; `avail` is the recomputed guard of the inner
`while (available := ...) == 0` wait (reaching it with no reader blocks). -/
def writeLoop : Nat → BytesBuffer → List Nat → Nat → WRes
  | 0, s, _, done => .blocked done s
  | fuel + 1, s, d, done =>
    if done < d.length ∧ s.closed = false then
      let cap := s.buffer.length
      let avail := if s.startC = s.endC then cap else pymod ((s.startC : Int) - s.endC) cap
      if avail = 0 then .blocked done s
      else
        let avail2 :=
          if s.startC % cap > s.endC % cap then avail
          else
            let a := pymod (-(s.endC : Int)) cap
            if a = 0 then cap else a
        let next := (d.drop done).take avail2
        let s' := { s with buffer := setRange s.buffer (s.endC % cap) next,
                           endC := s.endC + next.length }
        writeLoop fuel s' d (done + next.length)
    else .ok done s

/-- `BytesBuffer.write(data)`: `IOClosedError` when closed at entry, otherwise
the write loop.  Fuel `len(data) + 1` is sufficient: every iteration that
recurses writes at least one byte. -/
def BytesBuffer.write (s : BytesBuffer) (d : List Nat) : WRes :=
  if s.closed then .closedErr s else writeLoop (d.length + 1) s d 0

/-- Result of a pipe `read`/`readline`: `valueErr` models the `ValueError`
raised for a negative size (before anything else), `closedErr` the
`IOClosedError`, `blocked` the data-available wait with no concurrent writer,
`ok` the returned bytes and final state. -/
inductive RRes where
  | valueErr (s : BytesBuffer)
  | closedErr (s : BytesBuffer)
  | blocked (acc : List Nat) (s : BytesBuffer)
  | ok (v : List Nat) (s : BytesBuffer)
deriving DecidableEq, Repr

/-- The state carried by an `RRes`. -/
def RRes.st : RRes → BytesBuffer
  | .valueErr s => s
  | .closedErr s => s
  | .blocked _ s => s
  | .ok _ s => s

/-- The contiguous chunk a read takes from the ring:
`buffer[start % cap : end % cap]` when reading in the middle, else
`buffer[start % cap :]` (up to the wraparound point). -/
def chunkAt (s : BytesBuffer) : List Nat :=
  let cap := s.buffer.length
  if s.startC % cap < s.endC % cap then pyslice s.buffer (s.startC % cap) (s.endC % cap)
  else s.buffer.drop (s.startC % cap)

/-- The body of `BytesBuffer.read`'s loop `while read < size and not
self.closed` (the wrapper only enters it with `closed = false`, and the flag
cannot change during a single-threaded call; an empty ring reaches the
data-available wait). -/
def readLoop : Nat → BytesBuffer → SizeV → List Nat → RRes
  | 0, s, _, acc => .blocked acc s
  | fuel + 1, s, size, acc =>
    if size.gtN acc.length then
      if s.endC = s.startC then .blocked acc s
      else
        let packet := truncTo (chunkAt s) size acc.length
        let s' := { s with startC := s.startC + packet.length }
        readLoop fuel s' size (acc ++ packet)
    else .ok acc s

/-- `BytesBuffer.read(size)`: negative-size `ValueError` first, then the
closed-and-empty `IOClosedError` test; when closed with data left the loop
condition `not self.closed` is already false and `b""` is returned. -/
def BytesBuffer.read (s : BytesBuffer) (size : SizeV) : RRes :=
  if size.isNeg then .valueErr s
  else if s.closed ∧ s.startC = s.endC then .closedErr s
  else if s.closed then .ok [] s
  else readLoop (s.endC - s.startC + 1) s size []

/-- The first index of `a` in `l` (Python `list.index`; call sites guard on
containment). -/
def firstIdx (l : List Nat) (a : Nat) : Nat :=
  match l with
  | [] => 0
  | b :: r => if b = a then 0 else firstIdx r a + 1

/-- The body of `BytesBuffer.readline`'s loop: like `read`, but the
size-truncated packet is further cut at the first `b"\n"` (inclusive) and the
loop breaks after consuming a packet that contained one. -/
def readlineLoop : Nat → BytesBuffer → SizeV → List Nat → RRes
  | 0, s, _, acc => .blocked acc s
  | fuel + 1, s, size, acc =>
    if size.gtN acc.length then
      if s.endC = s.startC then .blocked acc s
      else
        let packet0 := truncTo (chunkAt s) size acc.length
        let packet := if packet0.contains 10 then packet0.take (firstIdx packet0 10 + 1) else packet0
        let s' := { s with startC := s.startC + packet.length }
        if packet.contains 10 then .ok (acc ++ packet) s'
        else readlineLoop fuel s' size (acc ++ packet)
    else .ok acc s

/-- `BytesBuffer.readline(size)`: same entry protocol as `read`. -/
def BytesBuffer.readline (s : BytesBuffer) (size : SizeV) : RRes :=
  if size.isNeg then .valueErr s
  else if s.closed ∧ s.startC = s.endC then .closedErr s
  else if s.closed then .ok [] s
  else readlineLoop (s.endC - s.startC + 1) s size []

/-- A sequence of `BytesBuffer.write` calls, collecting each return value
(short-circuiting on any error or block, which forwards that result). -/
def writeAll (s : BytesBuffer) (ws : List (List Nat)) : Except WRes (List Nat × BytesBuffer) :=
  match ws with
  | [] => .ok ([], s)
  | d :: ds =>
    match BytesBuffer.write s d with
    | .ok n s' =>
      match writeAll s' ds with
      | .ok (ns, s'') => .ok (n :: ns, s'')
      | .error e => .error e
    | e => .error e

/-- The ring-cursor well-formedness invariant of the claims: positive fixed
capacity and `0 ≤ write_cursor - read_cursor ≤ capacity`. -/
def Wf (s : BytesBuffer) : Prop :=
  0 < s.buffer.length ∧ s.startC ≤ s.endC ∧ s.endC ≤ s.startC + s.buffer.length

instance (s : BytesBuffer) : Decidable (Wf s) := by
  unfold Wf; infer_instance

/-- A valid Unicode scalar value (what CPython's strict UTF-8 codec accepts). -/
def ValidCp (c : Nat) : Prop :=
  c < 0x110000 ∧ ¬(0xD800 ≤ c ∧ c < 0xE000)

instance (c : Nat) : Decidable (ValidCp c) := by
  unfold ValidCp; infer_instance

/-- Length in bytes of the UTF-8 encoding of code point `c`. -/
def utf8Len (c : Nat) : Nat :=
  if c < 0x80 then 1 else if c < 0x800 then 2 else if c < 0x10000 then 3 else 4

/-- The UTF-8 encoding of code point `c`. -/
def utf8Encode (c : Nat) : List Nat :=
  if c < 0x80 then [c]
  else if c < 0x800 then [0xC0 + c / 64, 0x80 + c % 64]
  else if c < 0x10000 then [0xE0 + c / 4096, 0x80 + c / 64 % 64, 0x80 + c % 64]
  else [0xF0 + c / 262144, 0x80 + c / 4096 % 64, 0x80 + c / 64 % 64, 0x80 + c % 64]

/-- A string (list of code points) encoded to UTF-8 (Python `str.encode()`). -/
def encodeStr (cs : List Nat) : List Nat :=
  (cs.map utf8Encode).flatten

/-- Sequence length announced by a leading UTF-8 byte (0 for a byte that
cannot start a sequence). -/
def utf8ExpectedLen (b : Nat) : Nat :=
  if b < 0x80 then 1 else if b < 0xC0 then 0
  else if b < 0xE0 then 2 else if b < 0xF0 then 3
  else if b < 0xF8 then 4 else 0

/-- A UTF-8 continuation byte. -/
def isCont (b : Nat) : Bool :=
  0x80 ≤ b && b < 0xC0

/-- Strict decoding of one complete UTF-8 sequence given exactly its bytes
(continuations checked, overlong forms and surrogates rejected, like
CPython's strict codec). -/
def decodeCharBytes (l : List Nat) : Option Nat :=
  match l with
  | [b] => if b < 0x80 then some b else none
  | [b0, b1] =>
    if 0xC2 ≤ b0 ∧ b0 < 0xE0 ∧ isCont b1 then some ((b0 - 0xC0) * 64 + (b1 - 0x80)) else none
  | [b0, b1, b2] =>
    if 0xE0 ≤ b0 ∧ b0 < 0xF0 ∧ isCont b1 ∧ isCont b2 then
      let c := (b0 - 0xE0) * 4096 + (b1 - 0x80) * 64 + (b2 - 0x80)
      if 0x800 ≤ c ∧ ¬(0xD800 ≤ c ∧ c < 0xE000) then some c else none
    else none
  | [b0, b1, b2, b3] =>
    if 0xF0 ≤ b0 ∧ b0 < 0xF8 ∧ isCont b1 ∧ isCont b2 ∧ isCont b3 then
      let c := (b0 - 0xF0) * 262144 + (b1 - 0x80) * 4096 + (b2 - 0x80) * 64 + (b3 - 0x80)
      if 0x10000 ≤ c ∧ c < 0x110000 then some c else none
    else none
  | _ => none

def decodeAllF : Nat → List Nat → List Nat × List Nat
  | _, [] => ([], [])
  | 0, l => ([], l)
  | fuel + 1, b :: rest =>
    let need := utf8ExpectedLen b
    if need = 0 then
      let r := decodeAllF fuel rest
      (0xFFFD :: r.1, r.2)
    else if (b :: rest).length < need then ([], b :: rest)
    else
      match decodeCharBytes ((b :: rest).take need) with
      | some c =>
        let r := decodeAllF fuel ((b :: rest).drop need)
        (c :: r.1, r.2)
      | none =>
        let r := decodeAllF fuel rest
        (0xFFFD :: r.1, r.2)

/-- Incremental UTF-8 decoding of a byte list: the decoded code points and the
undecoded tail (an incomplete trailing sequence), exactly the state CPython's
incremental utf-8 decoder keeps between `decode` calls.  Invalid sequences,
which raise `UnicodeDecodeError` in CPython, are mapped to U+FFFD consuming
the offending leading byte; no claim feeds invalid bytes.  The fuel argument
of `decodeAllF` only bounds the recursion; `l.length` is always enough, since
every step consumes at least one byte. -/
def decodeAll (l : List Nat) : List Nat × List Nat :=
  decodeAllF l.length l

/-- State of the generator `StringBuffer.__incremental_chunck_decoder`:
construction parameters, the codec state (`pending`, the buffered incomplete
tail), the running character count and the liveness flag (Python raises
`StopIteration` when a finished generator is sent more data; the buffer's
loops never do). -/
structure ChunckDecoder where
  maxsize : SizeV
  stop_at_newline : Bool
  pending : List Nat
  decoded_chars : Nat
  running : Bool
deriving DecidableEq, Repr

/-- A fresh chunk decoder (the generator primed by the first `next(...)`). -/
def ChunckDecoder.start (maxsize : SizeV) (stop_at_newline : Bool) : ChunckDecoder :=
  ⟨maxsize, stop_at_newline, [], 0, true⟩

/-- The newline rewind of the chunk decoder: the codec state is reset and the
chunk is re-fed one byte at a time until the decoded character is `"\n"`
(Python's `for j in range(len(data)) ... if char == "\n": break`).  Returns
the decoded characters, the new codec state and the bytes used. -/
def searchNewline (pending data : List Nat) : List Nat × List Nat × Nat :=
  match data with
  | [] => ([], pending, 0)
  | b :: rest =>
    let r := decodeAll (pending ++ [b])
    if r.1 = [10] then (r.1, r.2, 1)
    else
      let r2 := searchNewline r.2 rest
      (r.1 ++ r2.1, r2.2.1, 1 + r2.2.2)

/-- The budget rewind of the chunk decoder: the codec state is reset and the
chunk re-fed one byte at a time until `missing` more characters have been
produced (`size += len(char) ... if size >= missing: break`). -/
def takeChars (pending data : List Nat) (missing : Nat) : List Nat × List Nat × Nat :=
  match data with
  | [] => ([], pending, 0)
  | b :: rest =>
    let r := decodeAll (pending ++ [b])
    if missing ≤ r.1.length then (r.1, r.2, 1)
    else
      let r2 := takeChars r.2 rest (missing - r.1.length)
      (r.1 ++ r2.1, r2.2.1, 1 + r2.2.2)

/-- Python `decoded_chars + len(chars) > maxsize`. -/
def SizeV.ltN (size : SizeV) (k : Nat) : Bool :=
  match size with
  | .fin n => n < (k : Int)
  | .inf => false

/-- Python `maxsize - decoded_chars` (only evaluated when `maxsize` is finite). -/
def SizeV.subN (size : SizeV) (k : Nat) : Nat :=
  match size with
  | .fin n => (n - (k : Int)).toNat
  | .inf => 0

/-- Python `decoded_chars >= maxsize`. -/
def SizeV.leN (size : SizeV) (k : Nat) : Bool :=
  match size with
  | .fin n => n ≤ (k : Int)
  | .inf => false

/-- One resumption of `__incremental_chunck_decoder`: bulk-decode the chunk,
then (readline only) rewind to find the exact newline boundary when the
newline is not the last decoded character, then rewind again when the
character budget would be exceeded.  Returns `(bytes_used, chars, new state)`. -/
def ChunckDecoder.feed (g : ChunckDecoder) (data : List Nat) : Nat × List Nat × ChunckDecoder :=
  let bulk := decodeAll (g.pending ++ data)
  let nlHit := g.stop_at_newline && bulk.1.contains 10
  let step2 :=
    if nlHit && decide (firstIdx bulk.1 10 ≠ bulk.1.length - 1) then searchNewline g.pending data
    else (bulk.1, bulk.2, data.length)
  let running2 := if nlHit then false else g.running
  let step3 :=
    if g.maxsize.ltN (g.decoded_chars + step2.1.length) then
      takeChars g.pending data (g.maxsize.subN g.decoded_chars)
    else step2
  let decoded' := g.decoded_chars + step3.1.length
  let running3 := if g.maxsize.leN decoded' then false else running2
  (step3.2.2, step3.1,
   { g with pending := step3.2.1, decoded_chars := decoded', running := running3 })

/-- State of a `Viper.io.StringBuffer`: the circular byte ring with its
cursors and closed flag (the same fields as a `BytesBuffer`), the `__extra`
staging buffer of encoded bytes that did not fit, and the character counters
`__read` / `__total`. -/
structure StringBuffer where
  ring : BytesBuffer
  extra : List Nat
  read_chars : Nat
  total_chars : Nat
deriving DecidableEq, Repr

/-- `StringBuffer.__init__(size)`. -/
def StringBuffer.init (size : Nat) : StringBuffer :=
  ⟨BytesBuffer.init size, [], 0, 0⟩

/-- `StringBuffer.close()`. -/
def StringBuffer.close (s : StringBuffer) : StringBuffer :=
  { s with ring := s.ring.close }

/-- The `StringBuffer.readable` property: `self.__total - self.__read`
(characters written but not yet read). -/
def StringBuffer.readable (s : StringBuffer) : Int :=
  (s.total_chars : Int) - s.read_chars

/-- The `StringBuffer.writable` property: same free-byte estimate as
`BytesBuffer.writable`. -/
def StringBuffer.writable (s : StringBuffer) : Nat :=
  s.ring.writable

/-- `StringBuffer.seekable()`: always `False`. -/
def StringBuffer.seekable (_s : StringBuffer) : Bool :=
  false

/-- `StringBuffer.seek`: unconditionally raises `OSError` (modelled as `none`). -/
def StringBuffer.seek (_s : StringBuffer) (_offset _whence : Int) : Option Int :=
  none

/-- `StringBuffer.truncate`: unconditionally raises `OSError` (modelled as `none`). -/
def StringBuffer.truncate (_s : StringBuffer) (_size : Option Int) : Option Unit :=
  none

/-- `StringBuffer.__write_extra()`: move as much of `__extra` as fits into the
ring without blocking, in one or two contiguous copies. -/
def StringBuffer.write_extra (s : StringBuffer) : StringBuffer :=
  let r := s.ring
  let cap := r.buffer.length
  let available := if r.startC ≠ r.endC then pymod ((r.startC : Int) - r.endC) cap else cap
  let bdata := s.extra.take available
  let extra' := s.extra.drop available
  if bdata = [] then { s with extra := extra' }
  else
    let ring' :=
      if r.startC % cap > r.endC % cap then
        { r with buffer := setRange r.buffer (r.endC % cap) bdata,
                 endC := r.endC + bdata.length }
      else
        let br0 := pymod (-(r.endC : Int)) cap
        let br := if br0 = 0 then cap else br0
        let bdata1 := bdata.take br
        let bdata2 := bdata.drop br
        { r with buffer := setRange (setRange r.buffer (r.endC % cap) bdata1) 0 bdata2,
                 endC := r.endC + bdata.length }
    { s with ring := ring', extra := extra' }

/-- Result of `StringBuffer.write` (same reading as `WRes`). -/
inductive SWRes where
  | closedErr (s : StringBuffer)
  | blocked (done : Nat) (s : StringBuffer)
  | ok (n : Nat) (s : StringBuffer)
deriving DecidableEq, Repr

/-- The state carried by an `SWRes`. -/
def SWRes.st : SWRes → StringBuffer
  | .closedErr s => s
  | .blocked _ s => s
  | .ok _ s => s

/-- `StringBuffer.write(data)`: encode, prepend the staged `__extra` bytes,
and if the character count is within the `writable` estimate keep only the
bytes that currently fit (stashing the rest back into `__extra` after the
loop) so the byte-pipe write loop cannot block. -/
def StringBuffer.write (s : StringBuffer) (data : List Nat) : SWRes :=
  if s.ring.closed then .closedErr s
  else
    let bdata1 := s.extra ++ encodeStr data
    let avail :=
      if s.ring.startC ≠ s.ring.endC then
        pymod ((s.ring.startC : Int) - s.ring.endC) s.ring.buffer.length
      else s.ring.buffer.length
    let promised := data.length ≤ s.writable
    let bdata := if promised then bdata1.take avail else bdata1
    let extraLoc := if promised then bdata1.drop avail else []
    match writeLoop (bdata.length + 1) s.ring bdata 0 with
    | .ok _done ring' =>
      .ok data.length
        { s with ring := ring', extra := extraLoc, total_chars := s.total_chars + data.length }
    | .blocked done ring' => .blocked done { s with ring := ring', extra := [] }
    | .closedErr ring' => .closedErr { s with ring := ring', extra := [] }

/-- Result of `StringBuffer.read`/`readline` (same reading as `RRes`). -/
inductive SRRes where
  | valueErr (s : StringBuffer)
  | closedErr (s : StringBuffer)
  | blocked (acc : List Nat) (s : StringBuffer)
  | ok (v : List Nat) (s : StringBuffer)
deriving DecidableEq, Repr

/-- The state carried by an `SRRes`. -/
def SRRes.st : SRRes → StringBuffer
  | .valueErr s => s
  | .closedErr s => s
  | .blocked _ s => s
  | .ok _ s => s

/-- The shared loop body of `StringBuffer.read` (`isReadline = false`) and
`StringBuffer.readline` (`isReadline = true`): opportunistically flush
`__extra` when the ring is empty, take the contiguous size-truncated chunk,
feed it to the chunk decoder, advance the read cursor by the bytes it used,
and (readline) break once the produced characters end with `"\n"`. -/
def sReadStep (s : StringBuffer) (size : SizeV) (g : ChunckDecoder) (racc : Nat) :
    StringBuffer × ChunckDecoder × List Nat :=
  let s1 := if s.ring.endC = s.ring.startC ∧ s.extra ≠ [] then s.write_extra else s
  let packet :=
    if s1.ring.endC ≠ s1.ring.startC then truncTo (chunkAt s1.ring) size racc
    else []
  let fr := g.feed packet
  ({ s1 with
      ring := { s1.ring with startC := s1.ring.startC + (packet.take fr.1).length },
      read_chars := s1.read_chars + fr.2.1.length },
   fr.2.2, fr.2.1)

def sReadLoop : Nat → StringBuffer → SizeV → ChunckDecoder → List Nat → Bool → SRRes
  | 0, s, _, _, acc, _ => .blocked acc s
  | fuel + 1, s, size, g, acc, isReadline =>
    if size.gtN acc.length then
      if s.ring.endC = s.ring.startC ∧ s.extra = [] then .blocked acc s
      else
        let st := sReadStep s size g acc.length
        if isReadline ∧ st.2.2.getLast? = some 10 then .ok (acc ++ st.2.2) st.1
        else sReadLoop fuel st.1 size st.2.1 (acc ++ st.2.2) isReadline
    else .ok acc s

/-- `StringBuffer.read(size)`: validation, closed protocol (identical to the
byte pipe, including returning `""` when closed with data left), then the
decoder-driven loop with a fresh `__incremental_chunck_decoder(size, False)`. -/
def StringBuffer.read (s : StringBuffer) (size : SizeV) : SRRes :=
  if size.isNeg then .valueErr s
  else if s.ring.closed ∧ s.ring.startC = s.ring.endC then .closedErr s
  else if s.ring.closed then .ok [] s
  else
    sReadLoop (s.ring.endC - s.ring.startC + s.extra.length + 1) s size
      (ChunckDecoder.start size false) [] false

/-- `StringBuffer.readline(size)`: as `read`, with a newline-stopping decoder
and the `chars.endswith("\n")` break. -/
def StringBuffer.readline (s : StringBuffer) (size : SizeV) : SRRes :=
  if size.isNeg then .valueErr s
  else if s.ring.closed ∧ s.ring.startC = s.ring.endC then .closedErr s
  else if s.ring.closed then .ok [] s
  else
    sReadLoop (s.ring.endC - s.ring.startC + s.extra.length + 1) s size
      (ChunckDecoder.start size true) [] true

/-- Well-formedness of a `StringBuffer`: its ring satisfies the cursor
invariant. -/
def WfS (s : StringBuffer) : Prop :=
  Wf s.ring

instance (s : StringBuffer) : Decidable (WfS s) := by
  unfold WfS; infer_instance

/-- A byte list that is a concatenation of valid UTF-8 character encodings
(the well-formed streams a `StringBuffer` writer can produce). -/
inductive ValidSeq : List Nat → Prop
  | nil : ValidSeq []
  | cons (c : Nat) {r : List Nat} : ValidCp c → ValidSeq r → ValidSeq (utf8Encode c ++ r)

/-- The packet one iteration of the write loop copies: the same `available`
computation as the loop body, exposed as a function so the loop lemmas can
name it. -/
def wnext (s : BytesBuffer) (d : List Nat) (done : Nat) : List Nat :=
  let cap := s.buffer.length
  let avail := if s.startC = s.endC then cap else pymod ((s.startC : Int) - s.endC) cap
  let avail2 :=
    if s.startC % cap > s.endC % cap then avail
    else
      let a := pymod (-(s.endC : Int)) cap
      if a = 0 then cap else a
  (d.drop done).take avail2

/-- The packet one iteration of `BytesBuffer.readline`'s loop consumes: the
size-truncated chunk, cut at the first newline inclusive when one is present. -/
def rlpacket (s : BytesBuffer) (size : SizeV) (racc : Nat) : List Nat :=
  let packet0 := truncTo (chunkAt s) size racc
  if packet0.contains 10 then packet0.take (firstIdx packet0 10 + 1) else packet0

/-! ### Arithmetic and list helper lemmas -/

theorem add_mod_split (a k n : Nat) (ha : a < n) (hk : k ≤ n) :
    (a + k) % n = if a + k < n then a + k else a + k - n := by
  split
  · exact Nat.mod_eq_of_lt ‹_›
  · rw [Nat.mod_eq_sub_mod (by omega)]
    exact Nat.mod_eq_of_lt (by omega)

theorem mod_shift (st m n : Nat) : (st + m) % n = (st % n + m) % n := by
  conv_lhs => rw [show st + m = st % n + m + n * (st / n) by
    have := Nat.mod_add_div st n; omega]
  exact Nat.add_mul_mod_self_left _ _ _

theorem int_sub_emod_self (x n : Int) : (x - n) % n = x % n := by
  rw [show x - n = x + n * (-1) by ring]
  exact Int.add_mul_emod_self_left _ _ _

theorem pymod_sub_eq (a b n : Nat) (hab : a ≤ b) (hbn : b ≤ a + n) (hne : a ≠ b) :
    pymod ((a : Int) - b) n = if b - a = n then 0 else n - (b - a) := by
  have hn : 0 < n := by omega
  have h2 : (a : Int) - b = ((n - (b - a) : Nat) : Int) - n := by push_cast; omega
  unfold pymod
  rw [h2, int_sub_emod_self]
  by_cases h : b - a = n
  · rw [if_pos h]
    have h4 : n - (b - a) = 0 := by omega
    rw [h4]
    simp
  · rw [if_neg h]
    rw [Int.emod_eq_of_lt (by push_cast; omega) (by push_cast; omega)]
    simp

theorem pymod_neg_eq (e n : Nat) (hn : 0 < n) :
    pymod (-(e : Int)) n = if e % n = 0 then 0 else n - e % n := by
  have he : ((e % n : Nat) : Int) + (n : Int) * ((e / n : Nat) : Int) = (e : Int) := by
    exact_mod_cast Nat.mod_add_div e n
  have h1 : -(e : Int) = (-((e % n : Nat) : Int)) + (n : Int) * (-((e / n : Nat) : Int)) := by
    linear_combination he
  have hm : e % n < n := Nat.mod_lt _ hn
  unfold pymod
  rw [h1, Int.add_mul_emod_self_left]
  have h3 : -((e % n : Nat) : Int) = ((n - e % n : Nat) : Int) - n := by push_cast; omega
  rw [h3, int_sub_emod_self]
  by_cases h : e % n = 0
  · rw [if_pos h]
    have h4 : n - e % n = n := by omega
    rw [h4]
    simp
  · rw [if_neg h]
    rw [Int.emod_eq_of_lt (by push_cast; omega) (by push_cast; omega)]
    simp

/-! ### Write-loop lemmas -/

theorem avail_eq (s : BytesBuffer) (hWf : Wf s) :
    (if s.startC = s.endC then s.buffer.length
     else pymod ((s.startC : Int) - s.endC) s.buffer.length)
      = s.buffer.length - (s.endC - s.startC) := by
  obtain ⟨hcap, hle, hub⟩ := hWf
  by_cases h : s.startC = s.endC
  · rw [if_pos h]; omega
  · rw [if_neg h, pymod_sub_eq _ _ _ hle (by omega) h]
    split <;> omega

theorem endC_mod_split (s : BytesBuffer) (hWf : Wf s) :
    s.endC % s.buffer.length =
      (if s.startC % s.buffer.length + (s.endC - s.startC) < s.buffer.length
       then s.startC % s.buffer.length + (s.endC - s.startC)
       else s.startC % s.buffer.length + (s.endC - s.startC) - s.buffer.length) := by
  obtain ⟨hcap, hle, hub⟩ := hWf
  have h1 : s.endC = s.startC + (s.endC - s.startC) := by omega
  conv_lhs => rw [h1]
  rw [mod_shift]
  exact add_mod_split _ _ _ (Nat.mod_lt _ hcap) (by omega)

theorem wnext_spec (s : BytesBuffer) (d : List Nat) (done : Nat)
    (hWf : Wf s) (hdone : done < d.length)
    (hfree : s.endC - s.startC < s.buffer.length) :
    1 ≤ (wnext s d done).length ∧
    (wnext s d done).length ≤ d.length - done ∧
    (wnext s d done).length ≤ s.buffer.length - (s.endC - s.startC) ∧
    s.endC % s.buffer.length + (wnext s d done).length ≤ s.buffer.length := by
  have hA := avail_eq s hWf
  have hB := endC_mod_split s hWf
  obtain ⟨hcap, hle, hub⟩ := hWf
  have ha : s.startC % s.buffer.length < s.buffer.length := Nat.mod_lt _ hcap
  have hx := pymod_neg_eq s.endC s.buffer.length hcap
  unfold wnext
  simp only [List.length_take, List.length_drop, hA, hx]
  split_ifs at * <;> omega

theorem writeLoop_step (s : BytesBuffer) (d : List Nat) (done fuel : Nat)
    (hWf : Wf s) (hcl : s.closed = false) (hdone : done < d.length)
    (hfree : s.endC - s.startC < s.buffer.length) :
    writeLoop (fuel + 1) s d done =
      writeLoop fuel
        { s with
          buffer := setRange s.buffer (s.endC % s.buffer.length) (wnext s d done),
          endC := s.endC + (wnext s d done).length }
        d (done + (wnext s d done).length) := by
  have hA := avail_eq s hWf
  obtain ⟨hcap, hle, hub⟩ := hWf
  simp only [writeLoop, wnext]
  rw [if_pos (⟨hdone, hcl⟩ : done < d.length ∧ s.closed = false), hA, if_neg (by omega)]

theorem setRange_length {l v : List Nat} {i : Nat} (h : i + v.length ≤ l.length) :
    (setRange l i v).length = l.length := by
  unfold setRange
  simp only [List.length_append, List.length_take, List.length_drop]
  omega

theorem writeLoop_wf : ∀ (fuel : Nat) (s : BytesBuffer) (d : List Nat) (done : Nat),
    Wf s →
    Wf (writeLoop fuel s d done).st ∧
      (writeLoop fuel s d done).st.buffer.length = s.buffer.length := by
  intro fuel
  induction fuel with
  | zero => intro s d done hWf; exact ⟨hWf, rfl⟩
  | succ fuel ih =>
    intro s d done hWf
    by_cases hg : done < d.length ∧ s.closed = false
    · by_cases hfree : s.endC - s.startC < s.buffer.length
      · rw [writeLoop_step s d done fuel hWf hg.2 hg.1 hfree]
        obtain ⟨h1, h2, h3, h4⟩ := wnext_spec s d done hWf hg.1 hfree
        have hlen : (setRange s.buffer (s.endC % s.buffer.length) (wnext s d done)).length
            = s.buffer.length := setRange_length h4
        have hWf' : Wf { s with
            buffer := setRange s.buffer (s.endC % s.buffer.length) (wnext s d done),
            endC := s.endC + (wnext s d done).length } := by
          obtain ⟨hcap, hle, hub⟩ := hWf
          refine ⟨by simpa [hlen] using hcap, by simp; omega, by simp [hlen]; omega⟩
        obtain ⟨hw, hl⟩ := ih _ d (done + (wnext s d done).length) hWf'
        exact ⟨hw, by rw [hl]; simpa using hlen⟩
      · have hA := avail_eq s hWf
        simp only [writeLoop]
        rw [if_pos hg, hA, if_pos (by omega)]
        exact ⟨hWf, rfl⟩
    · simp only [writeLoop]
      rw [if_neg hg]
      exact ⟨hWf, rfl⟩

theorem writeLoop_ne_closedErr : ∀ (fuel : Nat) (s : BytesBuffer) (d : List Nat) (done : Nat)
    (t : BytesBuffer), writeLoop fuel s d done ≠ .closedErr t := by
  intro fuel
  induction fuel with
  | zero => intro s d done t h; exact WRes.noConfusion h
  | succ fuel ih =>
    intro s d done t h
    rw [writeLoop] at h
    by_cases hg : done < d.length ∧ s.closed = false
    · rw [if_pos hg] at h
      by_cases hz : (if s.startC = s.endC then s.buffer.length
          else pymod ((s.startC : Int) - s.endC) s.buffer.length) = 0
      · rw [if_pos hz] at h
        exact WRes.noConfusion h
      · rw [if_neg hz] at h
        exact ih _ _ _ _ h
    · rw [if_neg hg] at h
      exact WRes.noConfusion h

theorem writeLoop_ok_val : ∀ (fuel : Nat) (s : BytesBuffer) (d : List Nat) (done : Nat),
    Wf s → s.closed = false → done ≤ d.length →
    ∀ n s', writeLoop fuel s d done = .ok n s' → n = d.length := by
  intro fuel
  induction fuel with
  | zero => intro s d done _ _ _ n s' h; exact WRes.noConfusion h
  | succ fuel ih =>
    intro s d done hWf hcl hdone n s' h
    by_cases hg : done < d.length
    · by_cases hfree : s.endC - s.startC < s.buffer.length
      · rw [writeLoop_step s d done fuel hWf hcl hg hfree] at h
        obtain ⟨h1, h2, h3, h4⟩ := wnext_spec s d done hWf hg hfree
        have hlen : (setRange s.buffer (s.endC % s.buffer.length) (wnext s d done)).length
            = s.buffer.length := setRange_length h4
        refine ih { s with
            buffer := setRange s.buffer (s.endC % s.buffer.length) (wnext s d done),
            endC := s.endC + (wnext s d done).length } d (done + (wnext s d done).length)
          ?_ hcl ?_ n s' h
        · obtain ⟨hcap, hle, hub⟩ := hWf
          refine ⟨by simpa [hlen] using hcap, by simp; omega, by simp [hlen]; omega⟩
        · omega
      · simp only [writeLoop] at h
        rw [if_pos (⟨hg, hcl⟩ : done < d.length ∧ s.closed = false), avail_eq s hWf,
            if_pos (by omega)] at h
        exact WRes.noConfusion h
    · simp only [writeLoop] at h
      rw [if_neg (fun hc => hg hc.1)] at h
      cases h
      omega

theorem writeLoop_complete : ∀ (fuel : Nat) (s : BytesBuffer) (d : List Nat) (done : Nat),
    Wf s → s.closed = false → done ≤ d.length →
    d.length - done ≤ s.buffer.length - (s.endC - s.startC) →
    d.length - done < fuel →
    ∃ buf', writeLoop fuel s d done
        = .ok d.length ⟨buf', s.startC, s.endC + (d.length - done), false⟩
      ∧ buf'.length = s.buffer.length := by
  intro fuel
  induction fuel with
  | zero => intro s d done _ _ _ _ hfuel; omega
  | succ fuel ih =>
    intro s d done hWf hcl hdone hfit hfuel
    by_cases hg : done < d.length
    · have hfree : s.endC - s.startC < s.buffer.length := by omega
      rw [writeLoop_step s d done fuel hWf hcl hg hfree]
      obtain ⟨h1, h2, h3, h4⟩ := wnext_spec s d done hWf hg hfree
      have hlen : (setRange s.buffer (s.endC % s.buffer.length) (wnext s d done)).length
          = s.buffer.length := setRange_length h4
      obtain ⟨hcap, hle, hub⟩ := hWf
      obtain ⟨buf', heq, hblen⟩ :=
        ih { s with
              buffer := setRange s.buffer (s.endC % s.buffer.length) (wnext s d done),
              endC := s.endC + (wnext s d done).length }
          d (done + (wnext s d done).length)
          ⟨by simpa [hlen] using hcap, by simp; omega, by simp [hlen]; omega⟩
          hcl (by omega) (by simp [hlen]; omega) (by omega)
      refine ⟨buf', ?_, by rw [hblen]; simpa using hlen⟩
      rw [heq]
      have hE : s.endC + (wnext s d done).length
            + (d.length - (done + (wnext s d done).length))
          = s.endC + (d.length - done) := by omega
      simp only []
      rw [hE]
    · have hdd : done = d.length := by omega
      rw [writeLoop, if_neg (fun hc => hg hc.1)]
      refine ⟨s.buffer, ?_, rfl⟩
      have hz : d.length - done = 0 := by omega
      rw [hz, hdd, Nat.add_zero, ← hcl]

theorem setRange_at_end (W rest d : List Nat) :
    setRange (W ++ rest) W.length d = W ++ (d ++ rest.drop d.length) := by
  unfold setRange
  rw [List.take_left, List.drop_append_eq_append_drop,
      List.drop_eq_nil_of_le (by omega)]
  have h1 : W.length + d.length - W.length = d.length := by omega
  rw [h1]
  simp

theorem write_from0 (W rest d : List Nat) (hfit : d.length ≤ rest.length) :
    BytesBuffer.write ⟨W ++ rest, 0, W.length, false⟩ d =
      .ok d.length ⟨W ++ (d ++ rest.drop d.length), 0, W.length + d.length, false⟩ := by
  match d with
  | [] => simp [BytesBuffer.write, writeLoop]
  | b :: d' =>
    have hrest : 1 ≤ rest.length := le_trans (by simp) hfit
    have hcap : W.length < (W ++ rest).length := by simp only [List.length_append]; omega
    have hWf : Wf ⟨W ++ rest, 0, W.length, false⟩ := by
      refine ⟨?_, ?_, ?_⟩ <;> simp <;> omega
    have hWm : W.length % (W ++ rest).length = W.length := Nat.mod_eq_of_lt hcap
    have hwn : wnext ⟨W ++ rest, 0, W.length, false⟩ (b :: d') 0 = b :: d' := by
      unfold wnext
      simp only [List.drop_zero]
      rw [if_neg (by simp), pymod_neg_eq _ _ (by omega)]
      simp only [hWm]
      apply List.take_of_length_le
      have hL : (W ++ rest).length = W.length + rest.length := by simp
      simp only [List.length_cons] at hfit ⊢
      split_ifs <;> omega
    show writeLoop ((b :: d').length + 1) ⟨W ++ rest, 0, W.length, false⟩ (b :: d') 0 = _
    rw [writeLoop_step _ _ 0 (b :: d').length hWf rfl (by simp) (by simpa using hcap), hwn]
    simp only [hWm, setRange_at_end, Nat.zero_add, List.length_cons]
    rw [writeLoop, if_neg (by intro hc; simp only [List.length_cons] at hc; omega)]

theorem read_from0 (buf : List Nat) (N : Nat) (hN : N ≤ buf.length) :
    BytesBuffer.read ⟨buf, 0, N, false⟩ (.fin (N : Int)) = .ok (buf.take N) ⟨buf, N, N, false⟩ := by
  have hneg : SizeV.isNeg (.fin (N : Int)) = false := by
    simp [SizeV.isNeg]
  rw [BytesBuffer.read, hneg]
  simp only [Bool.false_eq_true, if_false, false_and, Nat.sub_zero]
  by_cases hN0 : N = 0
  · subst hN0
    simp [readLoop, SizeV.gtN]
  · have hchunk : chunkAt ⟨buf, 0, N, false⟩ = buf.take N := by
      unfold chunkAt pyslice
      simp only [Nat.zero_mod, List.drop_zero, Nat.sub_zero]
      by_cases hlt : N < buf.length
      · rw [Nat.mod_eq_of_lt hlt, if_pos (by omega)]
      · have hEq : N = buf.length := by omega
        have hz : N % buf.length = 0 := by rw [hEq]; exact Nat.mod_self _
        rw [hz, if_neg (by omega), List.take_of_length_le (by omega)]
    have hplen : (buf.take N).length = N := by
      rw [List.length_take]; omega
    have hcond : ¬(((buf.take N).length : Int) > (N : Int) - ((0 : Nat) : Int)) := by
      rw [hplen]; push_cast; omega
    have htrunc : truncTo (buf.take N) (.fin (N : Int)) 0 = buf.take N := by
      simp only [truncTo]
      rw [if_neg hcond]
    rw [readLoop]
    split
    · simp only [List.length_nil, hchunk, htrunc, List.nil_append, hplen, Nat.zero_add]
      have hstop : ¬((SizeV.fin (N : Int)).gtN (List.take N buf).length = true) := by
        simp only [SizeV.gtN, hplen, decide_eq_true_eq]
        omega
      obtain ⟨m, rfl⟩ : ∃ m, N = m + 1 := ⟨N - 1, by omega⟩
      rw [readLoop, if_neg hstop]
    · rename_i hgt
      refine absurd ?_ hgt
      simp only [SizeV.gtN, List.length_nil, decide_eq_true_eq]
      push_cast
      omega

theorem writeAll_from0 : ∀ (ws : List (List Nat)) (W rest : List Nat),
    (ws.map List.length).sum ≤ rest.length →
    writeAll ⟨W ++ rest, 0, W.length, false⟩ ws =
      .ok (ws.map List.length,
        ⟨W ++ (ws.flatten ++ rest.drop ws.flatten.length), 0,
          W.length + ws.flatten.length, false⟩) := by
  intro ws
  induction ws with
  | nil =>
    intro W rest hfit
    simp [writeAll]
  | cons d ws' ih =>
    intro W rest hfit
    simp only [List.map_cons, List.sum_cons] at hfit
    have hd : d.length ≤ rest.length := by omega
    rw [writeAll, write_from0 W rest d hd]
    have hres : (⟨W ++ (d ++ rest.drop d.length), 0, W.length + d.length, false⟩ : BytesBuffer)
        = ⟨(W ++ d) ++ rest.drop d.length, 0, (W ++ d).length, false⟩ := by
      simp [List.append_assoc]
    rw [hres]
    simp only []
    rw [ih (W ++ d) (rest.drop d.length) (by simp only [List.length_drop]; omega)]
    simp [List.drop_drop, List.append_assoc, Nat.add_assoc]

/-- C3: on a fresh pipe of capacity `cap`, any sequence of writes totaling at
most `cap` bytes completes without blocking, each write returning the full
length of its argument, and a single read of the total then returns exactly
the concatenation of the written bytes in write order. -/
theorem claim_C3_write_then_read (cap : Nat) (ws : List (List Nat))
    (hcap : 0 < cap) (hfit : (ws.map List.length).sum ≤ cap) :
    ∃ s' s'', writeAll (BytesBuffer.init cap) ws = .ok (ws.map List.length, s') ∧
      BytesBuffer.read s' (.fin (ws.flatten.length : Int)) = .ok ws.flatten s'' := by
  have hflat : ws.flatten.length = (ws.map List.length).sum := List.length_flatten ws
  have h0 : BytesBuffer.init cap
      = ⟨([] : List Nat) ++ List.replicate cap 0, 0, ([] : List Nat).length, false⟩ := by
    simp [BytesBuffer.init]
  rw [h0, writeAll_from0 ws [] (List.replicate cap 0) (by simp only [List.length_replicate]; omega)]
  simp only [List.nil_append, List.length_nil, Nat.zero_add]
  have hread := read_from0 (ws.flatten ++ List.drop ws.flatten.length (List.replicate cap 0))
    ws.flatten.length
    (by simp only [List.length_append, List.length_drop, List.length_replicate]; omega)
  rw [List.take_left] at hread
  exact ⟨_, _, rfl, hread⟩

/-- Witness for C3 at a concrete input: capacity 4, writes `[1,2]` then `[3]`. -/
theorem claim_C3_write_then_read_witness :
    ∃ s' s'', writeAll (BytesBuffer.init 4) [[1, 2], [3]]
        = .ok (([[1, 2], [3]] : List (List Nat)).map List.length, s') ∧
      BytesBuffer.read s' (.fin ((([[1, 2], [3]] : List (List Nat)).flatten.length : Nat) : Int))
        = .ok ([[1, 2], [3]] : List (List Nat)).flatten s'' :=
  claim_C3_write_then_read 4 [[1, 2], [3]] (by decide) (by decide)

/-- C7: `BytesBuffer.write` raises the closed-stream error if and only if the
pipe is already closed at call entry, and a clean (non-blocked) completion
returns exactly the length of its argument. -/
theorem claim_C7_write_closed_contract (s : BytesBuffer) (d : List Nat) (hWf : Wf s) :
    (s.closed = true → BytesBuffer.write s d = .closedErr s) ∧
    (∀ t, BytesBuffer.write s d = .closedErr t → s.closed = true) ∧
    (∀ n s', BytesBuffer.write s d = .ok n s' → n = d.length) := by
  refine ⟨?_, ?_, ?_⟩
  · intro h
    rw [BytesBuffer.write, if_pos h]
  · intro t h
    cases hcl : s.closed with
    | true => rfl
    | false =>
      rw [BytesBuffer.write, if_neg (by rw [hcl]; exact Bool.false_ne_true)] at h
      exact absurd h (writeLoop_ne_closedErr _ _ _ _ _)
  · intro n s' h
    cases hcl : s.closed with
    | true =>
      rw [BytesBuffer.write, if_pos hcl] at h
      exact WRes.noConfusion h
    | false =>
      rw [BytesBuffer.write, if_neg (by rw [hcl]; exact Bool.false_ne_true)] at h
      exact writeLoop_ok_val _ s d 0 hWf hcl (Nat.zero_le _) n s' h

/-- Witness for C7: a closed pipe rejects the write, and the clean completion
on a fresh pipe of capacity 4 returns the full length 2 of `[7, 8]`. -/
theorem claim_C7_write_closed_contract_witness :
    BytesBuffer.write ((BytesBuffer.init 4).close) [7, 8]
        = .closedErr ((BytesBuffer.init 4).close) ∧
    (2 : Nat) = ([7, 8] : List Nat).length :=
  ⟨(claim_C7_write_closed_contract ((BytesBuffer.init 4).close) [7, 8] (by decide)).1 rfl,
   (claim_C7_write_closed_contract (BytesBuffer.init 4) [7, 8] (by decide)).2.2 2
     ⟨[7, 8, 0, 0], 0, 2, false⟩ (by decide)⟩

/-- C8: a negative `size` makes `read`/`readline` of both pipe types fail with
the validation error (`ValueError`) immediately — before the closed check or
any loop — leaving the state unchanged (the error carries the entry state). -/
theorem claim_C8_negative_size_validation (s : BytesBuffer) (t : StringBuffer) (n : Int)
    (hn : n < 0) :
    BytesBuffer.read s (.fin n) = .valueErr s ∧
    BytesBuffer.readline s (.fin n) = .valueErr s ∧
    StringBuffer.read t (.fin n) = .valueErr t ∧
    StringBuffer.readline t (.fin n) = .valueErr t := by
  have hneg : SizeV.isNeg (.fin n) = true := by
    simp only [SizeV.isNeg, decide_eq_true_eq]
    exact hn
  refine ⟨?_, ?_, ?_, ?_⟩
  · rw [BytesBuffer.read, if_pos hneg]
  · rw [BytesBuffer.readline, if_pos hneg]
  · rw [StringBuffer.read, if_pos hneg]
  · rw [StringBuffer.readline, if_pos hneg]

/-- Witness for C8: size `-1` on fresh pipes of capacity 4. -/
theorem claim_C8_negative_size_validation_witness :
    BytesBuffer.read (BytesBuffer.init 4) (.fin (-1)) = .valueErr (BytesBuffer.init 4) ∧
    BytesBuffer.readline (BytesBuffer.init 4) (.fin (-1)) = .valueErr (BytesBuffer.init 4) ∧
    StringBuffer.read (StringBuffer.init 4) (.fin (-1)) = .valueErr (StringBuffer.init 4) ∧
    StringBuffer.readline (StringBuffer.init 4) (.fin (-1)) = .valueErr (StringBuffer.init 4) :=
  claim_C8_negative_size_validation (BytesBuffer.init 4) (StringBuffer.init 4) (-1) (by decide)

theorem writable_eq (s : BytesBuffer) (hWf : Wf s) :
    s.writable = s.buffer.length - (s.endC - s.startC) := by
  obtain ⟨hcap, hle, hub⟩ := hWf
  unfold BytesBuffer.writable
  by_cases h : s.endC = s.startC
  · rw [if_pos h]
    omega
  · rw [if_neg h, pymod_sub_eq _ _ _ hle (by omega) (fun hc => h hc.symm)]
    split <;> omega

/-- C9 counterexample: the claim says `readable` reports true in every open
state of either pipe type, but in a fresh (open, empty) state `readable` is
the count `0` — Python falsy, not the static `True` capability flag — for
both `BytesBuffer` (occupied bytes) and `StringBuffer` (unread characters). -/
theorem claim_C9_capability_counterexample :
    ((BytesBuffer.init 4).closed = false ∧ BytesBuffer.readable (BytesBuffer.init 4) = 0) ∧
    ((StringBuffer.init 4).ring.closed = false ∧
      StringBuffer.readable (StringBuffer.init 4) = 0) := by
  exact ⟨⟨rfl, rfl⟩, rfl, rfl⟩

/-- C9 amended: on both pipe types, `readable`/`writable` are counts whose
truthiness varies with the state, not boolean capability flags — occupied
bytes and free bytes for `BytesBuffer`, unread characters
(`__total - __read`) and the free-byte estimate of the ring for
`StringBuffer` — while `seekable()` always reports false and
`seek`/`truncate` always raise the unsupported-operation `OSError`, in every
state of either type. -/
theorem claim_C9_capability_flags (s : BytesBuffer) (t : StringBuffer)
    (hWf : Wf s) (hWfS : WfS t) (off wh : Int) (sz : Option Int) :
    (BytesBuffer.seekable s = false ∧
     BytesBuffer.seek s off wh = none ∧
     BytesBuffer.truncate s sz = none ∧
     BytesBuffer.readable s = ((s.endC - s.startC : Nat) : Int) ∧
     BytesBuffer.writable s = s.buffer.length - (s.endC - s.startC)) ∧
    (StringBuffer.seekable t = false ∧
     StringBuffer.seek t off wh = none ∧
     StringBuffer.truncate t sz = none ∧
     StringBuffer.readable t = (t.total_chars : Int) - t.read_chars ∧
     StringBuffer.writable t = t.ring.buffer.length - (t.ring.endC - t.ring.startC)) := by
  obtain ⟨hcap, hle, hub⟩ := hWf
  refine ⟨⟨rfl, rfl, rfl, ?_, ?_⟩, rfl, rfl, rfl, rfl, ?_⟩
  · unfold BytesBuffer.readable
    push_cast
    omega
  · exact writable_eq s ⟨hcap, hle, hub⟩
  · unfold StringBuffer.writable
    exact writable_eq t.ring hWfS

/-- Witness for C9 amended: the fresh pipes of capacity 4 and `seek(0, 0)`. -/
theorem claim_C9_capability_flags_witness :
    (BytesBuffer.seekable (BytesBuffer.init 4) = false ∧
     BytesBuffer.seek (BytesBuffer.init 4) 0 0 = none ∧
     BytesBuffer.truncate (BytesBuffer.init 4) none = none ∧
     BytesBuffer.readable (BytesBuffer.init 4)
       = (((BytesBuffer.init 4).endC - (BytesBuffer.init 4).startC : Nat) : Int) ∧
     BytesBuffer.writable (BytesBuffer.init 4)
       = (BytesBuffer.init 4).buffer.length
         - ((BytesBuffer.init 4).endC - (BytesBuffer.init 4).startC)) ∧
    (StringBuffer.seekable (StringBuffer.init 4) = false ∧
     StringBuffer.seek (StringBuffer.init 4) 0 0 = none ∧
     StringBuffer.truncate (StringBuffer.init 4) none = none ∧
     StringBuffer.readable (StringBuffer.init 4)
       = ((StringBuffer.init 4).total_chars : Int) - (StringBuffer.init 4).read_chars ∧
     StringBuffer.writable (StringBuffer.init 4)
       = (StringBuffer.init 4).ring.buffer.length
         - ((StringBuffer.init 4).ring.endC - (StringBuffer.init 4).ring.startC)) :=
  claim_C9_capability_flags (BytesBuffer.init 4) (StringBuffer.init 4)
    (by decide) (by decide) 0 0 none

/-- C10: on any open pipe — even an empty one — `read(0)` and `readline(0)`
return the empty bytes and `write(b"")` returns 0, all immediately (no
blocked result) and with the state unchanged. -/
theorem claim_C10_zero_size_noop (s : BytesBuffer) (hcl : s.closed = false) :
    BytesBuffer.read s (.fin 0) = .ok [] s ∧
    BytesBuffer.readline s (.fin 0) = .ok [] s ∧
    BytesBuffer.write s [] = .ok 0 s := by
  have hneg : SizeV.isNeg (.fin 0) = false := by
    simp [SizeV.isNeg]
  have hstop : ¬(SizeV.gtN (.fin 0) ([] : List Nat).length = true) := by
    simp [SizeV.gtN]
  have hncl : ¬(s.closed = true) := by rw [hcl]; exact Bool.false_ne_true
  refine ⟨?_, ?_, ?_⟩
  · rw [BytesBuffer.read, hneg]
    simp only [Bool.false_eq_true, if_false]
    rw [if_neg (fun hc => hncl hc.1), if_neg hncl, readLoop, if_neg hstop]
  · rw [BytesBuffer.readline, hneg]
    simp only [Bool.false_eq_true, if_false]
    rw [if_neg (fun hc => hncl hc.1), if_neg hncl, readlineLoop, if_neg hstop]
  · rw [BytesBuffer.write, if_neg hncl, writeLoop, if_neg (fun hc => by
      have := hc.1
      simp at this)]

/-- Witness for C10: the fresh (open, empty) pipe of capacity 4. -/
theorem claim_C10_zero_size_noop_witness :
    BytesBuffer.read (BytesBuffer.init 4) (.fin 0) = .ok [] (BytesBuffer.init 4) ∧
    BytesBuffer.readline (BytesBuffer.init 4) (.fin 0) = .ok [] (BytesBuffer.init 4) ∧
    BytesBuffer.write (BytesBuffer.init 4) [] = .ok 0 (BytesBuffer.init 4) :=
  claim_C10_zero_size_noop (BytesBuffer.init 4) rfl

/-- C1 is a code bug: the read loop's condition `while read < size and not
self.closed` is false as soon as the pipe is closed, so a closed pipe holding
2 unread bytes returns `b""` from `read()`/`readline()` with the state
unchanged (and hence never drains the bytes and never subsequently raises),
instead of first yielding the buffered bytes as the class docstring promises. -/
theorem claim_C1_closed_read_never_drains :
    BytesBuffer.read ⟨[97, 98, 0, 0], 0, 2, true⟩ .inf
        = .ok [] ⟨[97, 98, 0, 0], 0, 2, true⟩ ∧
    BytesBuffer.readline ⟨[97, 98, 0, 0], 0, 2, true⟩ .inf
        = .ok [] ⟨[97, 98, 0, 0], 0, 2, true⟩ ∧
    BytesBuffer.readable ⟨[97, 98, 0, 0], 0, 2, true⟩ = 2 := by
  refine ⟨rfl, rfl, rfl⟩

/-! ### Read-loop and StringBuffer invariant lemmas -/

theorem truncTo_length_le (p : List Nat) (sz : SizeV) (r : Nat) :
    (truncTo p sz r).length ≤ p.length := by
  cases sz with
  | fin n =>
    simp only [truncTo]
    split
    · simp only [List.length_take]
      omega
    · exact le_refl _
  | inf => exact le_refl _

theorem chunkAt_length (s : BytesBuffer) (hWf : Wf s) (hne : ¬s.endC = s.startC) :
    1 ≤ (chunkAt s).length ∧ (chunkAt s).length ≤ s.endC - s.startC := by
  have hB := endC_mod_split s hWf
  obtain ⟨hcap, hle, hub⟩ := hWf
  have ha : s.startC % s.buffer.length < s.buffer.length := Nat.mod_lt _ hcap
  simp only [chunkAt, pyslice]
  split
  · simp only [List.length_take, List.length_drop]
    split_ifs at hB <;> omega
  · simp only [List.length_drop]
    split_ifs at hB <;> omega

theorem readLoop_step (s : BytesBuffer) (size : SizeV) (acc : List Nat) (fuel : Nat)
    (hgt : size.gtN acc.length = true) (hne : ¬(s.endC = s.startC)) :
    readLoop (fuel + 1) s size acc =
      readLoop fuel { s with startC := s.startC + (truncTo (chunkAt s) size acc.length).length }
        size (acc ++ truncTo (chunkAt s) size acc.length) := by
  rw [readLoop, if_pos hgt, if_neg hne]

theorem readLoop_wf : ∀ (fuel : Nat) (s : BytesBuffer) (size : SizeV) (acc : List Nat),
    Wf s → Wf (readLoop fuel s size acc).st ∧
      (readLoop fuel s size acc).st.buffer.length = s.buffer.length := by
  intro fuel
  induction fuel with
  | zero => intro s size acc hWf; exact ⟨hWf, rfl⟩
  | succ fuel ih =>
    intro s size acc hWf
    by_cases hgt : size.gtN acc.length = true
    · by_cases heq : s.endC = s.startC
      · rw [readLoop, if_pos hgt, if_pos heq]
        exact ⟨hWf, rfl⟩
      · rw [readLoop_step s size acc fuel hgt heq]
        have hck := chunkAt_length s hWf heq
        have htr := truncTo_length_le (chunkAt s) size acc.length
        obtain ⟨hcap, hle, hub⟩ := hWf
        exact ih { s with startC := s.startC + (truncTo (chunkAt s) size acc.length).length }
          size (acc ++ truncTo (chunkAt s) size acc.length)
          ⟨hcap, by simp; omega, by simp; omega⟩
    · rw [readLoop, if_neg hgt]
      exact ⟨hWf, rfl⟩

theorem readlineLoop_step (s : BytesBuffer) (size : SizeV) (acc : List Nat) (fuel : Nat)
    (hgt : size.gtN acc.length = true) (hne : ¬(s.endC = s.startC)) :
    readlineLoop (fuel + 1) s size acc =
      if (rlpacket s size acc.length).contains 10 then
        .ok (acc ++ rlpacket s size acc.length)
          { s with startC := s.startC + (rlpacket s size acc.length).length }
      else
        readlineLoop fuel { s with startC := s.startC + (rlpacket s size acc.length).length }
          size (acc ++ rlpacket s size acc.length) := by
  rw [readlineLoop, if_pos hgt, if_neg hne]
  rfl

theorem rlpacket_length_le (s : BytesBuffer) (size : SizeV) (racc : Nat) :
    (rlpacket s size racc).length ≤ (truncTo (chunkAt s) size racc).length := by
  simp only [rlpacket]
  split
  · simp only [List.length_take]
    omega
  · exact le_refl _

theorem readlineLoop_wf : ∀ (fuel : Nat) (s : BytesBuffer) (size : SizeV) (acc : List Nat),
    Wf s → Wf (readlineLoop fuel s size acc).st ∧
      (readlineLoop fuel s size acc).st.buffer.length = s.buffer.length := by
  intro fuel
  induction fuel with
  | zero => intro s size acc hWf; exact ⟨hWf, rfl⟩
  | succ fuel ih =>
    intro s size acc hWf
    by_cases hgt : size.gtN acc.length = true
    · by_cases heq : s.endC = s.startC
      · rw [readlineLoop, if_pos hgt, if_pos heq]
        exact ⟨hWf, rfl⟩
      · rw [readlineLoop_step s size acc fuel hgt heq]
        have hck := chunkAt_length s hWf heq
        have htr := truncTo_length_le (chunkAt s) size acc.length
        have hrl := rlpacket_length_le s size acc.length
        obtain ⟨hcap, hle, hub⟩ := hWf
        have hWf' : Wf { s with startC := s.startC + (rlpacket s size acc.length).length } :=
          ⟨hcap, by simp; omega, by simp; omega⟩
        split
        · exact ⟨hWf', rfl⟩
        · exact ih _ size (acc ++ rlpacket s size acc.length) hWf'
    · rw [readlineLoop, if_neg hgt]
      exact ⟨hWf, rfl⟩

theorem setRange2_length {l v1 v2 : List Nat} {i : Nat}
    (h1 : i + v1.length ≤ l.length) (h2 : v2.length ≤ l.length) :
    (setRange (setRange l i v1) 0 v2).length = l.length := by
  have hs1 := setRange_length h1
  exact (setRange_length (by rw [hs1]; omega)).trans hs1

theorem write_extra_wf (t : StringBuffer) (hWf : WfS t) :
    WfS t.write_extra ∧ t.write_extra.ring.buffer.length = t.ring.buffer.length ∧
    t.write_extra.ring.startC = t.ring.startC ∧ t.write_extra.ring.closed = t.ring.closed := by
  have hB := endC_mod_split t.ring hWf
  have hx := pymod_neg_eq t.ring.endC t.ring.buffer.length hWf.1
  obtain ⟨hcap, hle, hub⟩ := hWf
  have ha : t.ring.startC % t.ring.buffer.length < t.ring.buffer.length := Nat.mod_lt _ hcap
  have hA : (if t.ring.startC ≠ t.ring.endC
      then pymod ((t.ring.startC : Int) - t.ring.endC) t.ring.buffer.length
      else t.ring.buffer.length)
      = t.ring.buffer.length - (t.ring.endC - t.ring.startC) := by
    by_cases h : t.ring.startC = t.ring.endC
    · rw [if_neg (fun hc => hc h)]
      omega
    · rw [if_pos h, pymod_sub_eq _ _ _ hle (by omega) h]
      split <;> omega
  have hbl : (t.extra.take (t.ring.buffer.length - (t.ring.endC - t.ring.startC))).length
      ≤ t.ring.buffer.length - (t.ring.endC - t.ring.startC) := by
    simp only [List.length_take]
    omega
  simp only [StringBuffer.write_extra, hA, hx]
  split
  · exact ⟨⟨hcap, hle, hub⟩, rfl, rfl, rfl⟩
  · split
    · rename_i hmid
      have hin : t.ring.endC % t.ring.buffer.length
          + (t.extra.take (t.ring.buffer.length - (t.ring.endC - t.ring.startC))).length
          ≤ t.ring.buffer.length := by
        split_ifs at hB <;> omega
      have hsl := setRange_length (l := t.ring.buffer)
        (v := t.extra.take (t.ring.buffer.length - (t.ring.endC - t.ring.startC)))
        (i := t.ring.endC % t.ring.buffer.length) hin
      refine ⟨⟨?_, ?_, ?_⟩, ?_, rfl, rfl⟩ <;> simp only [hsl] <;> omega
    · rename_i hmid
      have hin1 : t.ring.endC % t.ring.buffer.length
          + ((t.extra.take (t.ring.buffer.length - (t.ring.endC - t.ring.startC))).take
              (if (if t.ring.endC % t.ring.buffer.length = 0 then 0
                   else t.ring.buffer.length - t.ring.endC % t.ring.buffer.length) = 0
               then t.ring.buffer.length
               else if t.ring.endC % t.ring.buffer.length = 0 then 0
                    else t.ring.buffer.length - t.ring.endC % t.ring.buffer.length)).length
          ≤ t.ring.buffer.length := by
        simp only [List.length_take]
        split_ifs at hB ⊢ <;> omega
      have hsl1 := setRange_length (l := t.ring.buffer) hin1
      have hv2 : ((t.extra.take
            (t.ring.buffer.length - (t.ring.endC - t.ring.startC))).drop
              (if (if t.ring.endC % t.ring.buffer.length = 0 then 0
                   else t.ring.buffer.length - t.ring.endC % t.ring.buffer.length) = 0
               then t.ring.buffer.length
               else if t.ring.endC % t.ring.buffer.length = 0 then 0
                    else t.ring.buffer.length - t.ring.endC % t.ring.buffer.length)).length
          ≤ t.ring.buffer.length := by
        simp only [List.length_drop, List.length_take]
        omega
      have hs2 := setRange2_length hin1 hv2
      refine ⟨⟨?_, ?_, ?_⟩, ?_, rfl, rfl⟩ <;> simp only [hs2] <;> omega

theorem ring_advance_wf (r : BytesBuffer) (n : Nat) (hWf : Wf r) (hn : n ≤ r.endC - r.startC) :
    Wf { r with startC := r.startC + n } := by
  obtain ⟨hcap, hle, hub⟩ := hWf
  exact ⟨hcap, by simp; omega, by simp; omega⟩

theorem spacket_le (s1 : StringBuffer) (size : SizeV) (racc u : Nat) (hWf : WfS s1) :
    ((if s1.ring.endC ≠ s1.ring.startC then truncTo (chunkAt s1.ring) size racc
      else []).take u).length ≤ s1.ring.endC - s1.ring.startC := by
  split
  · rename_i hne
    have h1 := chunkAt_length s1.ring hWf hne
    have h2 := truncTo_length_le (chunkAt s1.ring) size racc
    simp only [List.length_take]
    omega
  · simp

theorem sReadStep_wf (t : StringBuffer) (size : SizeV) (g : ChunckDecoder) (racc : Nat)
    (hWf : WfS t) :
    WfS (sReadStep t size g racc).1 ∧
      (sReadStep t size g racc).1.ring.buffer.length = t.ring.buffer.length := by
  simp only [sReadStep]
  by_cases hc : t.ring.endC = t.ring.startC ∧ t.extra ≠ []
  · rw [if_pos hc]
    obtain ⟨hW1, hl1, _, _⟩ := write_extra_wf t hWf
    exact ⟨ring_advance_wf _ _ hW1 (spacket_le t.write_extra size racc _ hW1), hl1⟩
  · rw [if_neg hc]
    exact ⟨ring_advance_wf _ _ hWf (spacket_le t size racc _ hWf), rfl⟩

theorem sReadLoop_step (fuel : Nat) (s : StringBuffer) (size : SizeV) (g : ChunckDecoder)
    (acc : List Nat) (rl : Bool)
    (hgt : size.gtN acc.length = true) (hbl : ¬(s.ring.endC = s.ring.startC ∧ s.extra = [])) :
    sReadLoop (fuel + 1) s size g acc rl =
      if rl ∧ (sReadStep s size g acc.length).2.2.getLast? = some 10 then
        .ok (acc ++ (sReadStep s size g acc.length).2.2) (sReadStep s size g acc.length).1
      else
        sReadLoop fuel (sReadStep s size g acc.length).1 size
          (sReadStep s size g acc.length).2.1 (acc ++ (sReadStep s size g acc.length).2.2) rl := by
  rw [sReadLoop, if_pos hgt, if_neg hbl]

theorem sReadLoop_wf : ∀ (fuel : Nat) (t : StringBuffer) (size : SizeV) (g : ChunckDecoder)
    (acc : List Nat) (rl : Bool), WfS t →
    WfS (sReadLoop fuel t size g acc rl).st ∧
      (sReadLoop fuel t size g acc rl).st.ring.buffer.length = t.ring.buffer.length := by
  intro fuel
  induction fuel with
  | zero => intro t size g acc rl hWf; exact ⟨hWf, rfl⟩
  | succ fuel ih =>
    intro t size g acc rl hWf
    by_cases hgt : size.gtN acc.length = true
    · by_cases hbl : t.ring.endC = t.ring.startC ∧ t.extra = []
      · rw [sReadLoop, if_pos hgt, if_pos hbl]
        exact ⟨hWf, rfl⟩
      · rw [sReadLoop_step fuel t size g acc rl hgt hbl]
        obtain ⟨hW1, hl1⟩ := sReadStep_wf t size g acc.length hWf
        split
        · exact ⟨hW1, hl1⟩
        · obtain ⟨h1, h2⟩ := ih (sReadStep t size g acc.length).1 size
            (sReadStep t size g acc.length).2.1 (acc ++ (sReadStep t size g acc.length).2.2)
            rl hW1
          exact ⟨h1, h2.trans hl1⟩
    · rw [sReadLoop, if_neg hgt]
      exact ⟨hWf, rfl⟩

theorem writeLoop_res_wf {fuel : Nat} {s : BytesBuffer} {d : List Nat} {done0 : Nat}
    (hWf : Wf s) :
    (∀ n r, writeLoop fuel s d done0 = .ok n r → Wf r ∧ r.buffer.length = s.buffer.length) ∧
    (∀ n r, writeLoop fuel s d done0 = .blocked n r → Wf r ∧ r.buffer.length = s.buffer.length) ∧
    (∀ r, writeLoop fuel s d done0 = .closedErr r → Wf r ∧ r.buffer.length = s.buffer.length) := by
  have h := writeLoop_wf fuel s d done0 hWf
  refine ⟨?_, ?_, ?_⟩
  · intro n r heq
    rw [heq] at h
    exact h
  · intro n r heq
    rw [heq] at h
    exact h
  · intro r heq
    rw [heq] at h
    exact h

theorem swrite_wf (t : StringBuffer) (data : List Nat) (hWf : WfS t) :
    WfS (StringBuffer.write t data).st ∧
      (StringBuffer.write t data).st.ring.buffer.length = t.ring.buffer.length := by
  rw [StringBuffer.write]
  split
  · exact ⟨hWf, rfl⟩
  · simp only []
    repeat' split
    all_goals
      first
        | exact (writeLoop_res_wf hWf).1 _ _ (by assumption)
        | exact (writeLoop_res_wf hWf).2.1 _ _ (by assumption)
        | exact (writeLoop_res_wf hWf).2.2 _ (by assumption)

theorem bread_wf (s : BytesBuffer) (sz : SizeV) (hWf : Wf s) :
    Wf (BytesBuffer.read s sz).st ∧ (BytesBuffer.read s sz).st.buffer.length = s.buffer.length := by
  rw [BytesBuffer.read]
  split
  · exact ⟨hWf, rfl⟩
  · split
    · exact ⟨hWf, rfl⟩
    · split
      · exact ⟨hWf, rfl⟩
      · exact readLoop_wf _ s sz [] hWf

theorem breadline_wf (s : BytesBuffer) (sz : SizeV) (hWf : Wf s) :
    Wf (BytesBuffer.readline s sz).st ∧
      (BytesBuffer.readline s sz).st.buffer.length = s.buffer.length := by
  rw [BytesBuffer.readline]
  split
  · exact ⟨hWf, rfl⟩
  · split
    · exact ⟨hWf, rfl⟩
    · split
      · exact ⟨hWf, rfl⟩
      · exact readlineLoop_wf _ s sz [] hWf

theorem sread_wf (t : StringBuffer) (sz : SizeV) (hWf : WfS t) :
    WfS (StringBuffer.read t sz).st ∧
      (StringBuffer.read t sz).st.ring.buffer.length = t.ring.buffer.length := by
  rw [StringBuffer.read]
  split
  · exact ⟨hWf, rfl⟩
  · split
    · exact ⟨hWf, rfl⟩
    · split
      · exact ⟨hWf, rfl⟩
      · exact sReadLoop_wf _ t sz _ [] false hWf

theorem sreadline_wf (t : StringBuffer) (sz : SizeV) (hWf : WfS t) :
    WfS (StringBuffer.readline t sz).st ∧
      (StringBuffer.readline t sz).st.ring.buffer.length = t.ring.buffer.length := by
  rw [StringBuffer.readline]
  split
  · exact ⟨hWf, rfl⟩
  · split
    · exact ⟨hWf, rfl⟩
    · split
      · exact ⟨hWf, rfl⟩
      · exact sReadLoop_wf _ t sz _ [] true hWf

/-- C6: the ring-cursor invariant `0 ≤ write_cursor - read_cursor ≤ capacity`
(with the capacity fixed) is preserved by every operation of both pipe types:
`write`, `read`, `readline` and `close` of `BytesBuffer`, and `write`,
`read`, `readline`, the `__write_extra` flush and `close` of `StringBuffer`
— in every outcome, including the state at a blocking wait or at an
exception. -/
theorem claim_C6_cursor_invariant :
    (∀ s : BytesBuffer, Wf s →
      (∀ d, Wf (BytesBuffer.write s d).st ∧
        (BytesBuffer.write s d).st.buffer.length = s.buffer.length) ∧
      (∀ sz, Wf (BytesBuffer.read s sz).st ∧
        (BytesBuffer.read s sz).st.buffer.length = s.buffer.length) ∧
      (∀ sz, Wf (BytesBuffer.readline s sz).st ∧
        (BytesBuffer.readline s sz).st.buffer.length = s.buffer.length) ∧
      (Wf s.close ∧ s.close.buffer.length = s.buffer.length)) ∧
    (∀ t : StringBuffer, WfS t →
      (∀ data, WfS (StringBuffer.write t data).st ∧
        (StringBuffer.write t data).st.ring.buffer.length = t.ring.buffer.length) ∧
      (∀ sz, WfS (StringBuffer.read t sz).st ∧
        (StringBuffer.read t sz).st.ring.buffer.length = t.ring.buffer.length) ∧
      (∀ sz, WfS (StringBuffer.readline t sz).st ∧
        (StringBuffer.readline t sz).st.ring.buffer.length = t.ring.buffer.length) ∧
      (WfS t.write_extra ∧ t.write_extra.ring.buffer.length = t.ring.buffer.length) ∧
      (WfS t.close ∧ t.close.ring.buffer.length = t.ring.buffer.length)) := by
  constructor
  · intro s hWf
    refine ⟨?_, ?_, ?_, ?_⟩
    · intro d
      rw [BytesBuffer.write]
      split
      · exact ⟨hWf, rfl⟩
      · exact writeLoop_wf _ s d 0 hWf
    · exact fun sz => bread_wf s sz hWf
    · exact fun sz => breadline_wf s sz hWf
    · exact ⟨hWf, rfl⟩
  · intro t hWf
    refine ⟨?_, ?_, ?_, ?_, ?_⟩
    · exact fun data => swrite_wf t data hWf
    · exact fun sz => sread_wf t sz hWf
    · exact fun sz => sreadline_wf t sz hWf
    · obtain ⟨h1, h2, _, _⟩ := write_extra_wf t hWf
      exact ⟨h1, h2⟩
    · exact ⟨hWf, rfl⟩

/-- Witness for C6: a pipe of capacity 4 holding one byte, and a text pipe
with one staged extra byte, exercising a write, a read and the extra flush. -/
theorem claim_C6_cursor_invariant_witness :
    Wf (BytesBuffer.write ⟨[7, 0, 0, 0], 0, 1, false⟩ [9]).st ∧
    Wf (BytesBuffer.read ⟨[7, 0, 0, 0], 0, 1, false⟩ .inf).st ∧
    WfS (StringBuffer.write_extra ⟨⟨[0, 0, 0, 0], 2, 2, false⟩, [104, 105], 0, 2⟩) := by
  have h := claim_C6_cursor_invariant
  refine ⟨((h.1 ⟨[7, 0, 0, 0], 0, 1, false⟩ (by decide)).1 [9]).1,
          ((h.1 ⟨[7, 0, 0, 0], 0, 1, false⟩ (by decide)).2.1 .inf).1,
          ((h.2 ⟨⟨[0, 0, 0, 0], 2, 2, false⟩, [104, 105], 0, 2⟩ (by decide)).2.2.2.1).1⟩

/-- C5: when the character count of the input is within the `writable`
estimate, `StringBuffer.write` never reaches the blocking wait: it writes
exactly the staged-plus-encoded bytes that fit the ring's current free space
(advancing the write cursor by that amount and leaving the read cursor
alone), stashes the remainder in the `extra` staging buffer, and returns the
character count of the input. -/
theorem claim_C5_promised_write_no_block (t : StringBuffer) (data : List Nat)
    (hWf : WfS t) (hcl : t.ring.closed = false) (hpr : data.length ≤ t.writable) :
    ∃ buf', StringBuffer.write t data =
        .ok data.length
          ⟨⟨buf', t.ring.startC,
            t.ring.endC + min t.writable (t.extra.length + (encodeStr data).length), false⟩,
           (t.extra ++ encodeStr data).drop t.writable,
           t.read_chars, t.total_chars + data.length⟩
      ∧ buf'.length = t.ring.buffer.length := by
  have hAv : (if t.ring.startC ≠ t.ring.endC
      then pymod ((t.ring.startC : Int) - t.ring.endC) t.ring.buffer.length
      else t.ring.buffer.length) = t.writable := by
    unfold StringBuffer.writable BytesBuffer.writable
    by_cases h : t.ring.startC = t.ring.endC
    · rw [if_neg (fun hc => hc h), if_pos h.symm]
    · rw [if_pos h, if_neg (fun hc => h hc.symm)]
  have hwr : t.writable = t.ring.buffer.length - (t.ring.endC - t.ring.startC) := by
    unfold StringBuffer.writable
    exact writable_eq t.ring hWf
  rw [StringBuffer.write, if_neg (by rw [hcl]; exact Bool.false_ne_true)]
  simp only [hAv, if_pos hpr]
  have hfit : ((t.extra ++ encodeStr data).take t.writable).length - 0
      ≤ t.ring.buffer.length - (t.ring.endC - t.ring.startC) := by
    rw [List.length_take]
    omega
  obtain ⟨buf', heq, hblen⟩ := writeLoop_complete
    (((t.extra ++ encodeStr data).take t.writable).length + 1) t.ring
    ((t.extra ++ encodeStr data).take t.writable) 0 hWf hcl (Nat.zero_le _) hfit (by omega)
  rw [heq]
  simp only []
  refine ⟨buf', ?_, hblen⟩
  have hlen : ((t.extra ++ encodeStr data).take t.writable).length - 0
      = min t.writable (t.extra.length + (encodeStr data).length) := by
    rw [List.length_take, List.length_append]
    omega
  rw [hlen]

/-- Witness for C5: a text pipe of capacity 4 with 2 bytes occupied and no
staged extra, writing the 2-character ASCII text "xy". -/
theorem claim_C5_promised_write_no_block_witness :
    ∃ buf', StringBuffer.write ⟨⟨[5, 6, 0, 0], 0, 2, false⟩, [], 0, 2⟩ [120, 121]
        = .ok 2 ⟨⟨buf', 0, 4, false⟩, [], 0, 4⟩ ∧ buf'.length = 4 :=
  claim_C5_promised_write_no_block ⟨⟨[5, 6, 0, 0], 0, 2, false⟩, [], 0, 2⟩ [120, 121]
    (by decide) rfl (by decide)

/-! ### Readline newline-boundary lemmas -/

theorem firstIdx_before : ∀ (l : List Nat) (a : Nat) (j : Nat),
    j < firstIdx l a → l[j]? ≠ some a := by
  intro l
  induction l with
  | nil => intro a j h; simp [firstIdx] at h
  | cons b r ih =>
    intro a j h
    rw [firstIdx] at h
    split at h
    · omega
    · rename_i hne
      cases j with
      | zero =>
        simp only [List.getElem?_cons_zero]
        intro hc
        exact hne (Option.some.inj hc)
      | succ k =>
        rw [List.getElem?_cons_succ]
        exact ih a k (by omega)

theorem firstIdx_lt : ∀ (l : List Nat) (a : Nat), a ∈ l → firstIdx l a < l.length := by
  intro l
  induction l with
  | nil => intro a h; exact absurd h (List.not_mem_nil a)
  | cons b r ih =>
    intro a h
    rw [firstIdx]
    split
    · simp
    · rename_i hne
      have : a ∈ r := by
        cases List.mem_cons.mp h with
        | inl hh => exact absurd hh.symm hne
        | inr hh => exact hh
      simpa using ih a this

theorem rlpacket_no_inner_newline (s : BytesBuffer) (size : SizeV) (racc : Nat) :
    ∀ i, i + 1 < (rlpacket s size racc).length → (rlpacket s size racc)[i]? ≠ some 10 := by
  intro i hi
  by_cases hc : (truncTo (chunkAt s) size racc).contains 10 = true
  · simp only [rlpacket, if_pos hc] at hi ⊢
    have hmem : (10 : Nat) ∈ truncTo (chunkAt s) size racc := List.elem_iff.mp hc
    have hflt := firstIdx_lt _ _ hmem
    have hlen : ((truncTo (chunkAt s) size racc).take
        (firstIdx (truncTo (chunkAt s) size racc) 10 + 1)).length
        = firstIdx (truncTo (chunkAt s) size racc) 10 + 1 := by
      rw [List.length_take]
      omega
    rw [hlen] at hi
    rw [List.getElem?_take_of_lt (by omega)]
    exact firstIdx_before _ _ _ (by omega)
  · simp only [rlpacket, if_neg hc] at hi ⊢
    intro heq
    exact hc (List.elem_iff.mpr (List.getElem?_mem heq))

theorem readlineLoop_newline_last : ∀ (fuel : Nat) (s : BytesBuffer) (size : SizeV)
    (acc : List Nat), (∀ i : Nat, acc[i]? ≠ some 10) →
    ∀ l s', readlineLoop fuel s size acc = .ok l s' →
    ∀ i : Nat, i + 1 < l.length → l[i]? ≠ some 10 := by
  intro fuel
  induction fuel with
  | zero => intro s size acc hacc l s' h; exact RRes.noConfusion h
  | succ fuel ih =>
    intro s size acc hacc l s' h
    by_cases hgt : size.gtN acc.length = true
    · by_cases heq : s.endC = s.startC
      · rw [readlineLoop, if_pos hgt, if_pos heq] at h
        exact RRes.noConfusion h
      · rw [readlineLoop_step s size acc fuel hgt heq] at h
        have happ : ∀ (p : List Nat), (∀ j, j + 1 < p.length → p[j]? ≠ some 10) →
            ∀ i, i + 1 < (acc ++ p).length → (acc ++ p)[i]? ≠ some 10 := by
          intro p hp i hi
          by_cases hlt : i < acc.length
          · rw [List.getElem?_append_left hlt]
            exact hacc i
          · rw [List.getElem?_append_right (by omega)]
            refine hp (i - acc.length) ?_
            simp only [List.length_append] at hi
            omega
        split at h
        · rename_i hnl
          cases h
          intro i hi
          refine happ _ ?_ i hi
          exact rlpacket_no_inner_newline s size acc.length
        · rename_i hnl
          refine ih _ size (acc ++ rlpacket s size acc.length) ?_ l s' h
          intro i
          by_cases hlt : i < acc.length
          · rw [List.getElem?_append_left hlt]
            exact hacc i
          · rw [List.getElem?_append_right (by omega)]
            intro hc
            have hm : (10 : Nat) ∈ rlpacket s size acc.length := List.getElem?_mem hc
            have : (rlpacket s size acc.length).contains 10 = true := List.elem_iff.mpr hm
            simp only [this] at hnl
            exact hnl trivial
    · rw [readlineLoop, if_neg hgt] at h
      cases h
      intro i hi2
      exact hacc i

/-- C4: `readline` stops at the first line terminator inclusive (a newline can
only be the last byte of a result) and respects the size budget exactly: on a
pipe buffering "abcdef\n", `readline(5)` returns the 5 bytes/characters
"abcde" in one call — no terminator reached — consuming exactly 5 encoded
bytes (the read cursor advances from 0 to 5), for the byte pipe and the text
pipe alike. -/
theorem claim_C4_readline_boundaries :
    (∀ (s : BytesBuffer) (size : SizeV) (l : List Nat) (s' : BytesBuffer),
      Wf s → s.closed = false → BytesBuffer.readline s size = .ok l s' →
      ∀ i : Nat, i + 1 < l.length → l[i]? ≠ some 10) ∧
    BytesBuffer.readline ⟨[97, 98, 99, 100, 101, 102, 10, 0], 0, 7, false⟩ (.fin 5)
      = .ok [97, 98, 99, 100, 101] ⟨[97, 98, 99, 100, 101, 102, 10, 0], 5, 7, false⟩ ∧
    StringBuffer.readline ⟨⟨[97, 98, 99, 100, 101, 102, 10, 0], 0, 7, false⟩, [], 0, 7⟩ (.fin 5)
      = .ok [97, 98, 99, 100, 101]
          ⟨⟨[97, 98, 99, 100, 101, 102, 10, 0], 5, 7, false⟩, [], 5, 7⟩ := by
  refine ⟨?_, by decide, by decide⟩
  intro s size l s' hWf hcl h
  rw [BytesBuffer.readline] at h
  split at h
  · exact RRes.noConfusion h
  · split at h
    · exact RRes.noConfusion h
    · split at h
      · cases h
        intro i hi
        simp at hi
      · exact readlineLoop_newline_last _ s size [] (by intro i; simp) l s' h

/-- Witness for C4's universally quantified part, at the concrete
"abcdef\n" pipe: position 0 of the 5-byte result is not a newline. -/
theorem claim_C4_readline_boundaries_witness :
    (([97, 98, 99, 100, 101] : List Nat))[0]? ≠ some 10 :=
  claim_C4_readline_boundaries.1 ⟨[97, 98, 99, 100, 101, 102, 10, 0], 0, 7, false⟩ (.fin 5)
    [97, 98, 99, 100, 101] ⟨[97, 98, 99, 100, 101, 102, 10, 0], 5, 7, false⟩
    (by decide) rfl claim_C4_readline_boundaries.2.1 0 (by decide)

/-! ### UTF-8 encoder/decoder correspondence lemmas -/

theorem utf8Len_pos (c : Nat) : 1 ≤ utf8Len c := by
  unfold utf8Len
  split_ifs <;> omega

theorem utf8Encode_length (c : Nat) : (utf8Encode c).length = utf8Len c := by
  unfold utf8Encode utf8Len
  split_ifs <;> rfl

theorem utf8Encode_cons (c : Nat) : ∃ b t, utf8Encode c = b :: t := by
  unfold utf8Encode
  split_ifs <;> exact ⟨_, _, rfl⟩

theorem utf8ExpectedLen_head (c : Nat) (h : c < 0x110000) :
    ∀ b t, utf8Encode c = b :: t → utf8ExpectedLen b = utf8Len c := by
  intro b t he
  unfold utf8Encode at he
  unfold utf8Len utf8ExpectedLen
  split_ifs at he with h1 h2 h3 <;>
    (simp only [List.cons.injEq] at he
     obtain ⟨hb, -⟩ := he
     subst hb) <;>
    split_ifs <;> omega

theorem isCont_true (b : Nat) (h1 : 0x80 ≤ b) (h2 : b < 0xC0) : isCont b = true := by
  unfold isCont
  simp only [Bool.and_eq_true, decide_eq_true_eq]
  omega

set_option maxRecDepth 4096 in
theorem decodeCharBytes_encode (c : Nat) (hv : ValidCp c) :
    decodeCharBytes (utf8Encode c) = some c := by
  obtain ⟨hlt, hsur⟩ := hv
  unfold utf8Encode
  split_ifs with h1 h2 h3
  · simp only [decodeCharBytes]
    exact if_pos h1
  · simp only [decodeCharBytes]
    rw [if_pos ⟨by omega, by omega, isCont_true _ (by omega) (by omega)⟩]
    congr 1
    omega
  · simp only [decodeCharBytes]
    rw [if_pos ⟨by omega, by omega, isCont_true _ (by omega) (by omega),
        isCont_true _ (by omega) (by omega)⟩]
    rw [if_pos (by constructor <;> omega)]
    congr 1
    omega
  · simp only [decodeCharBytes]
    rw [if_pos ⟨by omega, by omega, isCont_true _ (by omega) (by omega),
        isCont_true _ (by omega) (by omega), isCont_true _ (by omega) (by omega)⟩]
    rw [if_pos (by constructor <;> omega)]
    congr 1
    omega

theorem encodeStr_cons (c : Nat) (l : List Nat) :
    encodeStr (c :: l) = utf8Encode c ++ encodeStr l := by
  simp [encodeStr]

theorem append_eq_append_split {α : Type} (bs X E r : List α) (h : bs ++ X = E ++ r) :
    (E.length ≤ bs.length → bs = E ++ bs.drop E.length ∧ r = bs.drop E.length ++ X) ∧
    (bs.length < E.length → bs = E.take bs.length ∧ X = E.drop bs.length ++ r) := by
  constructor
  · intro hle
    have h1 : r = bs.drop E.length ++ X := by
      have hh := congrArg (List.drop E.length) h
      rw [List.drop_append_eq_append_drop, List.drop_append_eq_append_drop] at hh
      simpa [List.drop_length, Nat.sub_eq_zero_of_le hle] using hh.symm
    refine ⟨?_, h1⟩
    have h2 := congrArg (List.take E.length) h
    rw [List.take_append_eq_append_take, List.take_append_eq_append_take] at h2
    have h3 : bs.take E.length = E := by
      simpa [List.take_length, Nat.sub_eq_zero_of_le hle] using h2
    conv_lhs => rw [← List.take_append_drop E.length bs]
    rw [h3]
  · intro hlt
    constructor
    · have h2 := congrArg (List.take bs.length) h
      rw [List.take_append_eq_append_take, List.take_append_eq_append_take] at h2
      simpa [List.take_length, Nat.sub_self,
        Nat.sub_eq_zero_of_le (le_of_lt hlt)] using h2
    · have h3 := congrArg (List.drop bs.length) h
      rw [List.drop_append_eq_append_drop, List.drop_append_eq_append_drop] at h3
      simpa [List.drop_length, Nat.sub_self,
        Nat.sub_eq_zero_of_le (le_of_lt hlt)] using h3

theorem ValidSeq_cases {l : List Nat} (h : ValidSeq l) :
    l = [] ∨ ∃ c r, ValidCp c ∧ ValidSeq r ∧ l = utf8Encode c ++ r := by
  cases h with
  | nil => exact Or.inl rfl
  | cons c hc hr => exact Or.inr ⟨c, _, hc, hr, rfl⟩

theorem decodeAllF_spec : ∀ (fuel : Nat) (bs X : List Nat), bs.length ≤ fuel →
    ValidSeq (bs ++ X) →
    encodeStr (decodeAllF fuel bs).1 ++ (decodeAllF fuel bs).2 = bs ∧
    ValidSeq ((decodeAllF fuel bs).2 ++ X) := by
  intro fuel
  induction fuel with
  | zero =>
    intro bs X hlen hv
    cases bs with
    | nil => exact ⟨rfl, hv⟩
    | cons b r => simp at hlen
  | succ fuel ih =>
    intro bs X hlen hv
    cases bs with
    | nil => exact ⟨rfl, hv⟩
    | cons b rest =>
      rcases ValidSeq_cases hv with hnil | ⟨c, r, hc, hr, heq⟩
      · simp at hnil
      · have hclt : c < 0x110000 := hc.1
        obtain ⟨b0, t0, henc⟩ := utf8Encode_cons c
        have hEl : (utf8Encode c).length = utf8Len c := utf8Encode_length c
        have hLp := utf8Len_pos c
        have hsplit := append_eq_append_split (b :: rest) X (utf8Encode c) r heq
        by_cases hle : (utf8Encode c).length ≤ (b :: rest).length
        · obtain ⟨hbs, hrr⟩ := hsplit.1 hle
          have hb0 : b = b0 := by
            rw [henc, List.cons_append] at hbs
            exact (List.cons.injEq _ _ _ _).mp hbs |>.1
          have hneed : utf8ExpectedLen b = utf8Len c := by
            rw [hb0]
            exact utf8ExpectedLen_head c hclt b0 t0 henc
          rw [decodeAllF]
          rw [if_neg (by rw [hneed]; omega)]
          rw [if_neg (by rw [hneed]; rw [hEl] at hle; omega)]
          have htake : (b :: rest).take (utf8ExpectedLen b) = utf8Encode c := by
            rw [hneed, ← hEl]
            conv_lhs => rw [hbs]
            exact List.take_left _ _
          rw [htake, decodeCharBytes_encode c hc]
          simp only []
          have hdrop : (b :: rest).drop (utf8ExpectedLen b)
              = (b :: rest).drop (utf8Encode c).length := by
            rw [hneed, hEl]
          rw [hdrop]
          obtain ⟨ih1, ih2⟩ := ih ((b :: rest).drop (utf8Encode c).length) X
            (by simp only [List.length_drop, List.length_cons] at *; omega)
            (by rw [← hrr]; exact hr)
          refine ⟨?_, ih2⟩
          rw [encodeStr_cons, List.append_assoc, ih1]
          exact hbs.symm
        · have hlt : (b :: rest).length < (utf8Encode c).length := by omega
          obtain ⟨hbs, hX⟩ := hsplit.2 hlt
          have hb0 : b = b0 := by
            rw [henc, List.length_cons, List.take_succ_cons] at hbs
            exact (List.cons.injEq _ _ _ _).mp hbs |>.1
          have hneed : utf8ExpectedLen b = utf8Len c := by
            rw [hb0]
            exact utf8ExpectedLen_head c hclt b0 t0 henc
          rw [decodeAllF]
          rw [if_neg (by rw [hneed]; omega)]
          rw [if_pos (by rw [hneed]; rw [hEl] at hlt; omega)]
          exact ⟨rfl, hv⟩

theorem encodeStr_append (l1 l2 : List Nat) :
    encodeStr (l1 ++ l2) = encodeStr l1 ++ encodeStr l2 := by
  simp [encodeStr]

theorem decodeAll_spec (bs X : List Nat) (hv : ValidSeq (bs ++ X)) :
    encodeStr (decodeAll bs).1 ++ (decodeAll bs).2 = bs ∧
    ValidSeq ((decodeAll bs).2 ++ X) :=
  decodeAllF_spec bs.length bs X (le_refl _) hv

theorem searchNewline_spec : ∀ (data pending X : List Nat),
    ValidSeq (pending ++ data ++ X) →
    (searchNewline pending data).2.2 ≤ data.length ∧
    encodeStr (searchNewline pending data).1 ++ (searchNewline pending data).2.1
      = pending ++ data.take (searchNewline pending data).2.2 ∧
    ValidSeq ((searchNewline pending data).2.1
      ++ data.drop (searchNewline pending data).2.2 ++ X) := by
  intro data
  induction data with
  | nil =>
    intro pending X hv
    refine ⟨le_refl _, by simp [searchNewline, encodeStr], ?_⟩
    simpa using hv
  | cons b rest ih =>
    intro pending X hv
    have hv2 : ValidSeq ((pending ++ [b]) ++ (rest ++ X)) := by
      have : (pending ++ [b]) ++ (rest ++ X) = pending ++ (b :: rest) ++ X := by
        simp
      rw [this]
      exact hv
    obtain ⟨hcons, hvs⟩ := decodeAll_spec (pending ++ [b]) (rest ++ X) hv2
    simp only [searchNewline]
    by_cases h10 : (decodeAll (pending ++ [b])).1 = [10]
    · rw [if_pos h10]
      refine ⟨by simp, ?_, ?_⟩
      · simpa using hcons
      · simpa [List.append_assoc] using hvs
    · rw [if_neg h10]
      have hv3 : ValidSeq ((decodeAll (pending ++ [b])).2 ++ rest ++ X) := by
        simpa [List.append_assoc] using hvs
      obtain ⟨ihu, ihc, ihv⟩ := ih (decodeAll (pending ++ [b])).2 X hv3
      refine ⟨by simp only [List.length_cons]; omega, ?_, ?_⟩
      · rw [encodeStr_append, List.append_assoc, ihc, ← List.append_assoc, hcons]
        have ht : (b :: rest).take (1 + (searchNewline (decodeAll (pending ++ [b])).2 rest).2.2)
            = b :: rest.take (searchNewline (decodeAll (pending ++ [b])).2 rest).2.2 := by
          rw [Nat.add_comm, List.take_succ_cons]
        rw [ht]
        simp
      · have hd : (b :: rest).drop (1 + (searchNewline (decodeAll (pending ++ [b])).2 rest).2.2)
            = rest.drop (searchNewline (decodeAll (pending ++ [b])).2 rest).2.2 := by
          rw [Nat.add_comm, List.drop_succ_cons]
        rw [hd]
        exact ihv

theorem takeChars_spec : ∀ (data pending X : List Nat) (missing : Nat),
    ValidSeq (pending ++ data ++ X) →
    (takeChars pending data missing).2.2 ≤ data.length ∧
    encodeStr (takeChars pending data missing).1 ++ (takeChars pending data missing).2.1
      = pending ++ data.take (takeChars pending data missing).2.2 := by
  intro data
  induction data with
  | nil =>
    intro pending X missing hv
    exact ⟨le_refl _, by simp [takeChars, encodeStr]⟩
  | cons b rest ih =>
    intro pending X missing hv
    have hv2 : ValidSeq ((pending ++ [b]) ++ (rest ++ X)) := by
      have : (pending ++ [b]) ++ (rest ++ X) = pending ++ (b :: rest) ++ X := by
        simp
      rw [this]
      exact hv
    obtain ⟨hcons, hvs⟩ := decodeAll_spec (pending ++ [b]) (rest ++ X) hv2
    simp only [takeChars]
    by_cases hm : missing ≤ (decodeAll (pending ++ [b])).1.length
    · rw [if_pos hm]
      exact ⟨by simp, by simpa using hcons⟩
    · rw [if_neg hm]
      have hv3 : ValidSeq ((decodeAll (pending ++ [b])).2 ++ rest ++ X) := by
        simpa [List.append_assoc] using hvs
      obtain ⟨ihu, ihc⟩ := ih (decodeAll (pending ++ [b])).2 X
        (missing - (decodeAll (pending ++ [b])).1.length) hv3
      refine ⟨by simp only [List.length_cons]; omega, ?_⟩
      rw [encodeStr_append, List.append_assoc, ihc, ← List.append_assoc, hcons]
      have ht : (b :: rest).take
          (1 + (takeChars (decodeAll (pending ++ [b])).2 rest
            (missing - (decodeAll (pending ++ [b])).1.length)).2.2)
          = b :: rest.take (takeChars (decodeAll (pending ++ [b])).2 rest
            (missing - (decodeAll (pending ++ [b])).1.length)).2.2 := by
        rw [Nat.add_comm, List.take_succ_cons]
      rw [ht]
      simp

theorem feed_spec (g : ChunckDecoder) (data X : List Nat)
    (hv : ValidSeq (g.pending ++ data ++ X)) :
    (g.feed data).1 ≤ data.length ∧
    encodeStr (g.feed data).2.1 ++ (g.feed data).2.2.pending
      = g.pending ++ data.take (g.feed data).1 := by
  have hvb : ValidSeq ((g.pending ++ data) ++ X) := by
    simpa [List.append_assoc] using hv
  obtain ⟨hbulk, -⟩ := decodeAll_spec (g.pending ++ data) X hvb
  obtain ⟨hsu, hsc, -⟩ := searchNewline_spec data g.pending X hv
  simp only [ChunckDecoder.feed]
  split
  · -- newline rewind path, then possibly budget rewind
    split
    · obtain ⟨htu, htc⟩ := takeChars_spec data g.pending X
        (g.maxsize.subN g.decoded_chars) hv
      exact ⟨htu, htc⟩
    · exact ⟨hsu, hsc⟩
  · split
    · obtain ⟨htu, htc⟩ := takeChars_spec data g.pending X
        (g.maxsize.subN g.decoded_chars) hv
      exact ⟨htu, htc⟩
    · refine ⟨le_refl _, ?_⟩
      rw [List.take_length]
      exact hbulk

/-- C2 counterexample: feeding `b"a\xc3"` (an ASCII byte followed by the
first byte of a 2-byte sequence) to a fresh unbounded decoder reports 2 bytes
consumed while producing only "a", which needs 1 byte — the partial tail byte
is absorbed into the decoder state yet reported as consumed, contradicting
the claimed never-more-never-fewer correspondence. -/
theorem claim_C2_consumed_exactness_counterexample :
    (ChunckDecoder.start .inf false).feed [97, 195]
        = (2, [97], ⟨.inf, false, [195], 1, true⟩) ∧
    (encodeStr [97]).length = 1 ∧
    ¬(((ChunckDecoder.start .inf false).feed [97, 195]).1 = (encodeStr [97]).length) := by
  decide

/-- C2 amended: each `feed` reports at most the chunk length as consumed, and
the consumed bytes equal the re-encoding of the returned characters plus the
change in the decoder's retained partial-sequence state: the old pending tail
plus the consumed prefix of the chunk is exactly the encoding of the output
characters followed by the new pending tail (so a trailing incomplete
multi-byte sequence is withheld from the output and kept in decoder state,
counted as consumed), stated for any chunk cut from a valid UTF-8 stream. -/
theorem claim_C2_consumed_amended (g : ChunckDecoder) (data X : List Nat)
    (hv : ValidSeq (g.pending ++ data ++ X)) :
    (g.feed data).1 ≤ data.length ∧
    encodeStr (g.feed data).2.1 ++ (g.feed data).2.2.pending
      = g.pending ++ data.take (g.feed data).1 ∧
    g.pending.length + (g.feed data).1
      = (encodeStr (g.feed data).2.1).length + (g.feed data).2.2.pending.length := by
  obtain ⟨h1, h2⟩ := feed_spec g data X hv
  refine ⟨h1, h2, ?_⟩
  have h3 := congrArg List.length h2
  simp only [List.length_append, List.length_take] at h3
  omega

/-- Witness for C2 amended: the fresh decoder fed `b"a\xc3"`, a prefix of the
valid UTF-8 stream `b"a\xc3\xa9"` (the text "aé"). -/
theorem claim_C2_consumed_amended_witness :
    ((ChunckDecoder.start .inf false).feed [97, 195]).1 ≤ ([97, 195] : List Nat).length ∧
    encodeStr ((ChunckDecoder.start .inf false).feed [97, 195]).2.1
        ++ ((ChunckDecoder.start .inf false).feed [97, 195]).2.2.pending
      = (ChunckDecoder.start .inf false).pending
        ++ ([97, 195] : List Nat).take ((ChunckDecoder.start .inf false).feed [97, 195]).1 ∧
    (ChunckDecoder.start .inf false).pending.length
        + ((ChunckDecoder.start .inf false).feed [97, 195]).1
      = (encodeStr ((ChunckDecoder.start .inf false).feed [97, 195]).2.1).length
        + ((ChunckDecoder.start .inf false).feed [97, 195]).2.2.pending.length :=
  claim_C2_consumed_amended (ChunckDecoder.start .inf false) [97, 195] [169]
    (ValidSeq.cons 97 (by decide) (ValidSeq.cons 233 (by decide) ValidSeq.nil))
